import Mathlib

set_option maxHeartbeats 1000000

/-!
Shallow embedding of the cachettl library (src/cachettl/cachettl.py) together
with proofs about its synchronous facade (`cachettl`, built on
`functools.lru_cache` with a hidden `__time_modificator` time-bucket keyword)
and its suspending facades (`async_cachettl`, `async_cachettl_min`, built on an
explicit dict plus insertion-order list with exact per-entry expiry).

Modelling conventions:
- wall-clock timestamps (`time.time()`) are rationals; reachability relations
  require timestamps to be nonnegative and nondecreasing, matching real time;
- Python call arguments are `PyVal` (ints, floats, strings), with Python `==`
  semantics (`3 == 3.0`) given by `pyEq`;
- Python dicts are association lists in insertion order; dict update keeps the
  position of an existing key, deletion removes the unique matching entry;
- the producer (the wrapped function) is a pure function returning
  `Except ε PyVal`: `.error` models a raised exception;
- each call-shaped operation also reports whether the producer was invoked and
  which key the capacity check evicted; this is instrumentation for the
  specification, it does not influence the cache state.
-/

/-- Python values appearing as arguments and results: ints, floats and strings.
Floats are modelled as rationals (no NaN or infinity arises in the claims). -/
inductive PyVal where
  | vint : ℤ → PyVal
  | vfloat : ℚ → PyVal
  | vstr : String → PyVal
deriving DecidableEq

/-- Python runtime type of a value, the extra discriminant mixed into
`functools` keys when `typed=True`. -/
inductive PyType where
  | tInt : PyType
  | tFloat : PyType
  | tStr : PyType
deriving DecidableEq

def pyType : PyVal → PyType
  | .vint _ => .tInt
  | .vfloat _ => .tFloat
  | .vstr _ => .tStr

/-- Python `==` on the modelled values: ints and floats compare by numeric
value (`3 == 3.0` is true), strings by text, mixed kinds are unequal. -/
def pyEq : PyVal → PyVal → Bool
  | .vint a, .vint b => decide (a = b)
  | .vint a, .vfloat b => decide ((a : ℚ) = b)
  | .vfloat a, .vint b => decide (a = (b : ℚ))
  | .vfloat a, .vfloat b => decide (a = b)
  | .vstr a, .vstr b => decide (a = b)
  | _, _ => false

/-- Semantic view of a value under Python `==`: its numeric value, or its
text.  `pyEq` is exactly equality of these views. -/
def pyInterp : PyVal → ℚ ⊕ String
  | .vint a => Sum.inl (a : ℚ)
  | .vfloat a => Sum.inl a
  | .vstr a => Sum.inr a

theorem pyEq_iff (a b : PyVal) : pyEq a b = true ↔ pyInterp a = pyInterp b := by
  cases a <;> cases b <;> simp [pyEq, pyInterp]

theorem pyEq_refl (a : PyVal) : pyEq a a = true := (pyEq_iff a a).2 rfl

theorem pyEq_symm {a b : PyVal} (h : pyEq a b = true) : pyEq b a = true :=
  (pyEq_iff b a).2 ((pyEq_iff a b).1 h).symm

theorem pyEq_trans {a b c : PyVal} (h1 : pyEq a b = true) (h2 : pyEq b c = true) :
    pyEq a c = true :=
  (pyEq_iff a c).2 (((pyEq_iff a b).1 h1).trans ((pyEq_iff b c).1 h2))

/-- Python `==` on tuples of values (elementwise, same length). -/
def pyListEq : List PyVal → List PyVal → Bool
  | [], [] => true
  | a :: la, b :: lb => pyEq a b && pyListEq la lb
  | _, _ => false

theorem pyListEq_iff : ∀ (la lb : List PyVal),
    pyListEq la lb = true ↔ la.map pyInterp = lb.map pyInterp := by
  intro la
  induction la with
  | nil => intro lb; cases lb <;> simp [pyListEq]
  | cons a la ih =>
    intro lb
    cases lb with
    | nil => simp [pyListEq]
    | cons b lb => simp [pyListEq, pyEq_iff, ih]

theorem pyListEq_refl (la : List PyVal) : pyListEq la la = true :=
  (pyListEq_iff la la).2 rfl

theorem pyListEq_symm {la lb : List PyVal} (h : pyListEq la lb = true) :
    pyListEq lb la = true :=
  (pyListEq_iff lb la).2 ((pyListEq_iff la lb).1 h).symm

theorem pyListEq_trans {la lb lc : List PyVal} (h1 : pyListEq la lb = true)
    (h2 : pyListEq lb lc = true) : pyListEq la lc = true :=
  (pyListEq_iff la lc).2 (((pyListEq_iff la lb).1 h1).trans ((pyListEq_iff lb lc).1 h2))

/-- One element of a flattened `functools._make_key` tuple: an argument value,
the keyword-marker sentinel object, a keyword name, or a runtime type. -/
inductive KeyElem where
  | v : PyVal → KeyElem
  | kwmark : KeyElem
  | name : String → KeyElem
  | ty : PyType → KeyElem

/-- Python `==` on key elements.  The marker sentinel equals only itself; a
type object equals only itself; names and values compare as in Python.  (A
keyword name never compares equal to an argument value in a well-formed key
because the two never occupy the same position; see `make_key`.) -/
def keyElemEq : KeyElem → KeyElem → Bool
  | .v a, .v b => pyEq a b
  | .kwmark, .kwmark => true
  | .name a, .name b => decide (a = b)
  | .ty a, .ty b => decide (a = b)
  | _, _ => false

/-- Semantic view of a key element, so that `keyElemEq` is equality of views. -/
inductive KeyElemI where
  | num : ℚ → KeyElemI
  | strv : String → KeyElemI
  | mark : KeyElemI
  | nm : String → KeyElemI
  | typ : PyType → KeyElemI
deriving DecidableEq

def keyElemInterp : KeyElem → KeyElemI
  | .v a =>
    match pyInterp a with
    | .inl q => .num q
    | .inr s => .strv s
  | .kwmark => .mark
  | .name s => .nm s
  | .ty t => .typ t

theorem keyElemEq_iff (a b : KeyElem) :
    keyElemEq a b = true ↔ keyElemInterp a = keyElemInterp b := by
  cases a with
  | v x =>
    cases b with
    | v y =>
      simp only [keyElemEq, pyEq_iff, keyElemInterp]
      cases hx : pyInterp x <;> cases hy : pyInterp y <;> simp
    | kwmark => simp [keyElemEq, keyElemInterp]; cases pyInterp x <;> simp
    | name s => simp [keyElemEq, keyElemInterp]; cases pyInterp x <;> simp
    | ty t => simp [keyElemEq, keyElemInterp]; cases pyInterp x <;> simp
  | kwmark =>
    cases b with
    | v y => simp [keyElemEq, keyElemInterp]; cases pyInterp y <;> simp
    | kwmark => simp [keyElemEq, keyElemInterp]
    | name s => simp [keyElemEq, keyElemInterp]
    | ty t => simp [keyElemEq, keyElemInterp]
  | name s =>
    cases b with
    | v y => simp [keyElemEq, keyElemInterp]; cases pyInterp y <;> simp
    | kwmark => simp [keyElemEq, keyElemInterp]
    | name s2 => simp [keyElemEq, keyElemInterp]
    | ty t => simp [keyElemEq, keyElemInterp]
  | ty t =>
    cases b with
    | v y => simp [keyElemEq, keyElemInterp]; cases pyInterp y <;> simp
    | kwmark => simp [keyElemEq, keyElemInterp]
    | name s => simp [keyElemEq, keyElemInterp]
    | ty t2 => simp [keyElemEq, keyElemInterp]

/-- Python `==` on flattened key tuples (elementwise, same length). -/
def keyListEq : List KeyElem → List KeyElem → Bool
  | [], [] => true
  | a :: la, b :: lb => keyElemEq a b && keyListEq la lb
  | _, _ => false

theorem keyListEq_iff : ∀ (la lb : List KeyElem),
    keyListEq la lb = true ↔ la.map keyElemInterp = lb.map keyElemInterp := by
  intro la
  induction la with
  | nil => intro lb; cases lb <;> simp [keyListEq]
  | cons a la ih =>
    intro lb
    cases lb with
    | nil => simp [keyListEq]
    | cons b lb => simp [keyListEq, keyElemEq_iff, ih]

theorem keyListEq_refl (la : List KeyElem) : keyListEq la la = true :=
  (keyListEq_iff la la).2 rfl

/-- CPython `functools._make_key`: the flattened tuple of positional arguments,
then (if any keyword arguments) the sentinel marker followed by the keyword
items in dict order, then (if `typed`) the types of the positional arguments
followed by the types of the keyword values.  The single-fast-type shortcut of
CPython never fires inside cachettl because the kwargs dict always carries
`__time_modificator`, so it is not modelled. -/
def make_key (args : List PyVal) (kwds : List (String × PyVal)) (typed : Bool) :
    List KeyElem :=
  let key := args.map KeyElem.v
  let key := if kwds.isEmpty then key else
    key ++ KeyElem.kwmark ::
      kwds.foldr (fun p acc => KeyElem.name p.1 :: KeyElem.v p.2 :: acc) []
  if typed then
    key ++ args.map (fun a => KeyElem.ty (pyType a)) ++
      (if kwds.isEmpty then [] else kwds.map (fun p => KeyElem.ty (pyType p.2)))
  else key

/-- Python `int(x)` for our rational timestamps: truncation toward zero. -/
def truncQ (q : ℚ) : ℤ := if 0 ≤ q then ⌊q⌋ else ⌈q⌉

/-! ## Python dicts and lists as used by the suspending facades -/

/-- Dict lookup (`d[k]` / `k in d`): first entry whose key is `==` to `k`. -/
def dictGet {α : Type} (c : List (List PyVal × α)) (k : List PyVal) : Option α :=
  match c with
  | [] => none
  | e :: rest => if pyListEq k e.1 then some e.2 else dictGet rest k

/-- Dict assignment (`d[k] = v`): update in place if a `==`-equal key is
present (keeping the stored key object and position), else append. -/
def dictSet {α : Type} (c : List (List PyVal × α)) (k : List PyVal) (v : α) :
    List (List PyVal × α) :=
  match c with
  | [] => [(k, v)]
  | e :: rest => if pyListEq k e.1 then (e.1, v) :: rest else e :: dictSet rest k v

/-- Dict deletion (`del d[k]`): drop the first `==`-equal entry. -/
def dictDel {α : Type} (c : List (List PyVal × α)) (k : List PyVal) :
    List (List PyVal × α) :=
  match c with
  | [] => []
  | e :: rest => if pyListEq k e.1 then rest else e :: dictDel rest k

/-- Python `list.remove(k)`: drop the first `==`-equal element.  (Python would
raise ValueError on a missing element; under the structural invariant proved
below the element is always present when the code calls this.) -/
def listRemove (l : List (List PyVal)) (k : List PyVal) : List (List PyVal) :=
  match l with
  | [] => []
  | x :: rest => if pyListEq k x then rest else x :: listRemove rest k

/-- Decorator configuration: `ttl` in seconds, optional `maxsize`, `typed`. -/
structure CacheConfig where
  ttl : ℚ
  maxsize : Option ℕ
  typed : Bool

/-- The `CacheInfo` named tuple returned by `cache_info()`. -/
structure CacheInfoT where
  hits : ℕ
  misses : ℕ
  maxsize : Option ℕ
  currsize : ℕ
  remainingttl : ℚ
deriving DecidableEq

/-! ## The suspending facade `async_cachettl`

State of one decorated function: the dict `cache` mapping the positional
argument tuple to `{'result': value, 'time': insertion time}`, the list
`cache_order` of keys in insertion order, and the `hits`/`misses` counters.
Keyword arguments are passed to the producer but take no part in the key. -/

/-- One entry of the async `cache` dict: key, result value, insertion time. -/
abbrev AEntry : Type := List PyVal × PyVal × ℚ

/-- Membership test of the sweep: the code removes entries with
`current_time - entry_time >= ttl`, so an entry is kept iff its age is < ttl. -/
def aliveEntry (t ttl : ℚ) (e : AEntry) : Bool := decide (t - e.2.2 < ttl)

/-- Keys the sweep will delete: those with `current_time - time >= ttl`. -/
def expiredKeys (c : List AEntry) (t ttl : ℚ) : List (List PyVal) :=
  (c.filter (fun e => decide (ttl ≤ t - e.2.2))).map (·.1)

/-- One iteration of the sweep loop: `del cache[key]; cache_order.remove(key)`. -/
def sweepDel (p : List AEntry × List (List PyVal)) (k : List PyVal) :
    List AEntry × List (List PyVal) :=
  (dictDel p.1 k, listRemove p.2 k)

/-- The lazy expiration sweep run at the top of `_new_lrucache` and of
`cache_info`. -/
def asyncSweep (c : List AEntry) (ord : List (List PyVal)) (t ttl : ℚ) :
    List AEntry × List (List PyVal) :=
  (expiredKeys c t ttl).foldl sweepDel (c, ord)

/-- Result of one call through the async core, with specification
instrumentation: whether the producer ran and which key the capacity check
evicted.  The instrumentation fields do not influence the cache state. -/
structure ACoreResult (ε : Type) where
  result : Except ε PyVal
  invoked : Bool
  evicted : Option (List PyVal)
  cache : List AEntry
  cache_order : List (List PyVal)

/-- The `maxsize and len(cache_order) > maxsize` test (`None` and `0` falsy). -/
def maxsizeTruthy : Option ℕ → ℕ → Bool
  | none, _ => false
  | some n, len => decide (n ≠ 0) && decide (n < len)

/-- Miss path shared by both branches: `misses`-side bookkeeping is layered on
top by `asyncCall`; here: invoke producer, insert, run the capacity check. -/
def asyncMiss {ε : Type} (cfg : CacheConfig)
    (producer : List PyVal → List (String × PyVal) → Except ε PyVal)
    (c : List AEntry) (ord : List (List PyVal)) (t : ℚ) (args : List PyVal)
    (kwargs : List (String × PyVal)) : ACoreResult ε :=
  match producer args kwargs with
  | .error e => ⟨.error e, true, none, c, ord⟩
  | .ok v =>
    let c := dictSet c args (v, t)
    let ord := ord ++ [args]
    if maxsizeTruthy cfg.maxsize ord.length then
      match ord with
      | [] => ⟨.ok v, true, none, c, ord⟩
      | oldest :: rest => ⟨.ok v, true, some oldest, dictDel c oldest, rest⟩
    else ⟨.ok v, true, none, c, ord⟩

/-- The cache part of `async_cachettl._new_lrucache` (shared verbatim with
`async_cachettl_min._new_lrucache`): sweep expired entries, serve a live hit,
else (deleting a stale same-key entry, dead code after the sweep) invoke the
producer, store on success, and enforce the capacity bound. -/
def asyncCore {ε : Type} (cfg : CacheConfig)
    (producer : List PyVal → List (String × PyVal) → Except ε PyVal)
    (c0 : List AEntry) (ord0 : List (List PyVal)) (t : ℚ) (args : List PyVal)
    (kwargs : List (String × PyVal)) : ACoreResult ε :=
  let sw := asyncSweep c0 ord0 t cfg.ttl
  match dictGet sw.1 args with
  | some ent =>
    if t - ent.2 < cfg.ttl then ⟨.ok ent.1, false, none, sw.1, sw.2⟩
    else
      asyncMiss cfg producer (dictDel sw.1 args) (listRemove sw.2 args) t args kwargs
  | none => asyncMiss cfg producer sw.1 sw.2 t args kwargs

/-- State owned by one `async_cachettl`-decorated function. -/
structure AsyncState where
  cache : List AEntry
  cache_order : List (List PyVal)
  hits : ℕ
  misses : ℕ

/-- Result of one call through the `async_cachettl` wrapper. -/
structure AsyncCallResult (ε : Type) where
  result : Except ε PyVal
  invoked : Bool
  evicted : Option (List PyVal)
  state : AsyncState

/-- `async_cachettl._new_lrucache`: the core call plus the hit/miss counters,
which are reset when the sweep has emptied the cache ("reset hits and misses
ONLY if all entries are expired"), then incremented for this call. -/
def asyncCall {ε : Type} (cfg : CacheConfig)
    (producer : List PyVal → List (String × PyVal) → Except ε PyVal)
    (st : AsyncState) (t : ℚ) (args : List PyVal)
    (kwargs : List (String × PyVal)) : AsyncCallResult ε :=
  let sw := asyncSweep st.cache st.cache_order t cfg.ttl
  let hm : ℕ × ℕ := if sw.1 = [] then (0, 0) else (st.hits, st.misses)
  let r := asyncCore cfg producer st.cache st.cache_order t args kwargs
  { result := r.result, invoked := r.invoked, evicted := r.evicted,
    state :=
      { cache := r.cache, cache_order := r.cache_order,
        hits := hm.1 + (if r.invoked then 0 else 1),
        misses := hm.2 + (if r.invoked then 1 else 0) } }

/-- `async_cachettl`'s `cache_info()`: sweep, reset counters when empty, and
report.  Python indexes `cache_order[0]` and `cache[first_key]`; the `0`
fallbacks below are unreachable under the structural invariant (Python would
raise IndexError/KeyError there). -/
def asyncInfo (cfg : CacheConfig) (st : AsyncState) (t : ℚ) :
    CacheInfoT × AsyncState :=
  let sw := asyncSweep st.cache st.cache_order t cfg.ttl
  if sw.1 = [] then
    (⟨0, 0, cfg.maxsize, 0, 0⟩, ⟨sw.1, sw.2, 0, 0⟩)
  else
    let remaining : ℚ :=
      match sw.2 with
      | [] => 0
      | k :: _ =>
        match dictGet sw.1 k with
        | some ent => cfg.ttl - (t - ent.2)
        | none => 0
    (⟨st.hits, st.misses, cfg.maxsize, sw.1.length, remaining⟩,
     ⟨sw.1, sw.2, st.hits, st.misses⟩)

/-- `async_cachettl`'s `cache_clear()`, and also the initial state. -/
def asyncClear : AsyncState := ⟨[], [], 0, 0⟩

/-- Pure observation: would a call with `args` at time `t` be served as a hit
(a live `==`-equal entry exists)?  Does not mutate. -/
def asyncIsHit (cfg : CacheConfig) (st : AsyncState) (t : ℚ)
    (args : List PyVal) : Bool :=
  match dictGet st.cache args with
  | some ent => decide (t - ent.2 < cfg.ttl)
  | none => false

/-- State owned by one `async_cachettl_min`-decorated function (no counters,
no `cache_info`/`cache_clear`). -/
structure AsyncMinState where
  cache : List AEntry
  cache_order : List (List PyVal)

/-- `async_cachettl_min._new_lrucache`: exactly the shared core. -/
def asyncMinCall {ε : Type} (cfg : CacheConfig)
    (producer : List PyVal → List (String × PyVal) → Except ε PyVal)
    (st : AsyncMinState) (t : ℚ) (args : List PyVal)
    (kwargs : List (String × PyVal)) : Except ε PyVal × AsyncMinState :=
  let r := asyncCore cfg producer st.cache st.cache_order t args kwargs
  (r.result, ⟨r.cache, r.cache_order⟩)

/-! ## The synchronous facade `cachettl`

`cachettl._wrapped` calls a `functools.lru_cache`-decorated inner function with
the caller's arguments plus the hidden keyword `__time_modificator =
int(time.time() / ttl)`, so the lru key is the flattened `_make_key` tuple of
the positional arguments, the keyword arguments in call order, and the time
bucket.  We store the three components and compare entries through their
flattened `make_key` images, which is observably the same dict equality.
Alongside, `insertion_times[args] = time.time()` is a dict keyed by the
positional arguments only, never swept (only `cache_clear` empties it). -/

def TIMEMOD : String := "__time_modificator"

/-- The components from which the lru key of one sync call is built. -/
structure SyncKey where
  args : List PyVal
  kwargs : List (String × PyVal)
  modificator : ℤ
deriving DecidableEq

/-- The flattened `_make_key` tuple of one sync call: user kwargs in call
order, then the hidden `__time_modificator` item appended last. -/
def syncFlatKey (typed : Bool) (k : SyncKey) : List KeyElem :=
  make_key k.args (k.kwargs ++ [(TIMEMOD, .vint k.modificator)]) typed

/-- Equality of lru-cache keys: Python `==` of the flattened tuples. -/
def syncKeyEq (typed : Bool) (k1 k2 : SyncKey) : Bool :=
  keyListEq (syncFlatKey typed k1) (syncFlatKey typed k2)

/-- One entry of the sync lru cache.  `insertedAt` is a specification ghost
recording when the entry was created (`functools.lru_cache` stores only the
result); it takes no part in lookup or eviction. -/
structure SyncEntry where
  key : SyncKey
  value : PyVal
  insertedAt : ℚ
deriving DecidableEq

/-- State owned by one `cachettl`-decorated function: the lru cache in
most-recently-used-first order, its hit/miss counters, and the
`insertion_times` dict in insertion order. -/
structure SyncState where
  lru : List SyncEntry
  hits : ℕ
  misses : ℕ
  insertion_times : List (List PyVal × ℚ)
deriving DecidableEq

/-- Lookup in the lru dict: first entry whose key is `==` to the query. -/
def lruLookup (typed : Bool) (l : List SyncEntry) (k : SyncKey) :
    Option SyncEntry :=
  match l with
  | [] => none
  | e :: rest => if syncKeyEq typed k e.key then some e else lruLookup typed rest k

/-- Remove the first entry whose key is `==` to the query. -/
def lruRemove (typed : Bool) (l : List SyncEntry) (k : SyncKey) :
    List SyncEntry :=
  match l with
  | [] => []
  | e :: rest => if syncKeyEq typed k e.key then rest else e :: lruRemove typed rest k

/-- On a bounded-cache hit, `functools.lru_cache` moves the entry to the
most-recently-used end of its linked list. -/
def lruMoveToFront (typed : Bool) (l : List SyncEntry) (k : SyncKey) :
    List SyncEntry :=
  match lruLookup typed l k with
  | some e => e :: lruRemove typed l k
  | none => l

/-- Dict assignment for `insertion_times[args] = time.time()`. -/
def timesSet (d : List (List PyVal × ℚ)) (k : List PyVal) (t : ℚ) :
    List (List PyVal × ℚ) :=
  match d with
  | [] => [(k, t)]
  | e :: rest => if pyListEq k e.1 then (e.1, t) :: rest else e :: timesSet rest k t

/-- Result of one call through the `cachettl` wrapper. -/
structure SyncCallResult (ε : Type) where
  result : Except ε PyVal
  invoked : Bool
  state : SyncState

/-- `cachettl._wrapped` / `_new_lrucache`: compute the bucketed key, serve a
hit (bumping it to most-recently-used when a maxsize is set), else count a
miss, invoke the producer, and on success store the result (evicting the
least-recently-used entry beyond `maxsize`) and record `insertion_times[args]`.
`functools.lru_cache` counts the miss before the user function runs, stores
nothing when it raises, and never touches `insertion_times` on failure. -/
def syncCall {ε : Type} (cfg : CacheConfig)
    (producer : List PyVal → List (String × PyVal) → Except ε PyVal)
    (st : SyncState) (t : ℚ) (args : List PyVal)
    (kwargs : List (String × PyVal)) : SyncCallResult ε :=
  let k : SyncKey := ⟨args, kwargs, truncQ (t / cfg.ttl)⟩
  match lruLookup cfg.typed st.lru k with
  | some e =>
    ⟨.ok e.value, false,
      { st with hits := st.hits + 1,
                lru := if cfg.maxsize.isSome then lruMoveToFront cfg.typed st.lru k
                       else st.lru }⟩
  | none =>
    match producer args kwargs with
    | .error err => ⟨.error err, true, { st with misses := st.misses + 1 }⟩
    | .ok v =>
      let lru := SyncEntry.mk k v t :: st.lru
      let lru := match cfg.maxsize with
        | some n => lru.take n
        | none => lru
      ⟨.ok v, true,
        { lru := lru, hits := st.hits, misses := st.misses + 1,
          insertion_times := timesSet st.insertion_times args t }⟩

/-- `cachettl`'s `cache_info()`: the lru counters and size, plus a remaining
ttl computed from the first key of the never-swept `insertion_times` dict
(`0` when that dict is empty).  Does not mutate. -/
def syncInfo (cfg : CacheConfig) (st : SyncState) (t : ℚ) : CacheInfoT :=
  let remaining : ℚ :=
    match st.insertion_times with
    | [] => 0
    | e :: _ => cfg.ttl - (t - e.2)
  ⟨st.hits, st.misses, cfg.maxsize, st.lru.length, remaining⟩

/-- `cachettl`'s `cache_clear()`, and also the initial state. -/
def syncClear : SyncState := ⟨[], 0, 0, []⟩

/-- Pure observation: would a call with these arguments at time `t` be served
as a hit by the sync facade?  Does not mutate. -/
def syncIsHit (cfg : CacheConfig) (st : SyncState) (t : ℚ) (args : List PyVal)
    (kwargs : List (String × PyVal)) : Bool :=
  (lruLookup cfg.typed st.lru ⟨args, kwargs, truncQ (t / cfg.ttl)⟩).isSome

/-! ## Reachability

States reachable by any sequence of operations whose wall-clock timestamps
start at 0 and never decrease (`time.time()` is nonnegative and monotone).
The producer outcome of each call is arbitrary (`ε := Unit` for uniformity:
the error value itself never influences the state). -/

/-- Reachable states of one `async_cachettl` instance, together with an upper
bound `τ` on all timestamps used so far. -/
inductive AsyncReach (cfg : CacheConfig) : AsyncState → ℚ → Prop where
  | init : AsyncReach cfg asyncClear 0
  | call {st τ} (h : AsyncReach cfg st τ)
      (producer : List PyVal → List (String × PyVal) → Except Unit PyVal)
      (t : ℚ) (args : List PyVal) (kwargs : List (String × PyVal))
      (ht : τ ≤ t) :
      AsyncReach cfg (asyncCall cfg producer st t args kwargs).state t
  | info {st τ} (h : AsyncReach cfg st τ) (t : ℚ) (ht : τ ≤ t) :
      AsyncReach cfg (asyncInfo cfg st t).2 t
  | clear {st τ} (h : AsyncReach cfg st τ) (t : ℚ) (ht : τ ≤ t) :
      AsyncReach cfg asyncClear t

/-- Reachable states of one `async_cachettl_min` instance. -/
inductive AsyncMinReach (cfg : CacheConfig) : AsyncMinState → ℚ → Prop where
  | init : AsyncMinReach cfg ⟨[], []⟩ 0
  | call {st τ} (h : AsyncMinReach cfg st τ)
      (producer : List PyVal → List (String × PyVal) → Except Unit PyVal)
      (t : ℚ) (args : List PyVal) (kwargs : List (String × PyVal))
      (ht : τ ≤ t) :
      AsyncMinReach cfg (asyncMinCall cfg producer st t args kwargs).2 t

/-- Reachable states of one `cachettl` instance.  `cache_info` does not mutate
the sync state, so it contributes no step. -/
inductive SyncReach (cfg : CacheConfig) : SyncState → ℚ → Prop where
  | init : SyncReach cfg syncClear 0
  | call {st τ} (h : SyncReach cfg st τ)
      (producer : List PyVal → List (String × PyVal) → Except Unit PyVal)
      (t : ℚ) (args : List PyVal) (kwargs : List (String × PyVal))
      (ht : τ ≤ t) :
      SyncReach cfg (syncCall cfg producer st t args kwargs).state t
  | clear {st τ} (h : SyncReach cfg st τ) (t : ℚ) (ht : τ ≤ t) :
      SyncReach cfg syncClear t

/-! ## Dict lemmas -/

theorem dictGet_none_iff {α : Type} :
    ∀ (c : List (List PyVal × α)) (k : List PyVal),
    dictGet c k = none ↔ ∀ e ∈ c, pyListEq k e.1 = false := by
  intro c k
  induction c with
  | nil => simp [dictGet]
  | cons e rest ih =>
    cases h : pyListEq k e.1 with
    | true => simp [dictGet, h]
    | false => simp [dictGet, h, ih]

theorem dictGet_some_mem {α : Type} :
    ∀ (c : List (List PyVal × α)) (k : List PyVal) (v : α),
    dictGet c k = some v → ∃ kk, (kk, v) ∈ c ∧ pyListEq k kk = true := by
  intro c k v
  induction c with
  | nil => simp [dictGet]
  | cons e rest ih =>
    cases h : pyListEq k e.1 with
    | true =>
      simp only [dictGet, h, if_true, Option.some.injEq]
      intro hv
      exact ⟨e.1, by simp [← hv, h], h⟩
    | false =>
      simp only [dictGet, h, Bool.false_eq_true, if_false]
      intro hv
      obtain ⟨kk, hmem, hkk⟩ := ih hv
      exact ⟨kk, List.mem_cons_of_mem _ hmem, hkk⟩

theorem dictGet_eq_of_mem {α : Type} :
    ∀ (c : List (List PyVal × α)) (q kk : List PyVal) (v : α),
    c.Pairwise (fun e1 e2 => pyListEq e1.1 e2.1 = false) →
    (kk, v) ∈ c → pyListEq q kk = true → dictGet c q = some v := by
  intro c q kk v hp hmem hq
  induction c with
  | nil => cases hmem
  | cons e rest ih =>
    rw [List.pairwise_cons] at hp
    rcases List.mem_cons.1 hmem with he | hrest
    · subst he
      simp [dictGet, hq]
    · have hne : pyListEq q e.1 = false := by
        cases hqe : pyListEq q e.1 with
        | false => rfl
        | true =>
          have h1 : pyListEq e.1 kk = true :=
            pyListEq_trans (pyListEq_symm hqe) hq
          have h2 : pyListEq e.1 kk = false := hp.1 (kk, v) hrest
          rw [h1] at h2; cases h2
      simp only [dictGet, hne, Bool.false_eq_true, if_false]
      exact ih hp.2 hrest

theorem dictSet_eq_append {α : Type} :
    ∀ (c : List (List PyVal × α)) (k : List PyVal) (v : α),
    dictGet c k = none → dictSet c k v = c ++ [(k, v)] := by
  intro c k v h
  induction c with
  | nil => simp [dictSet]
  | cons e rest ih =>
    have hk : pyListEq k e.1 = false := ((dictGet_none_iff _ _).1 h) e (by simp)
    have hrest : dictGet rest k = none := by
      rw [dictGet_none_iff]
      intro e2 he2
      exact ((dictGet_none_iff _ _).1 h) e2 (List.mem_cons_of_mem _ he2)
    simp [dictSet, hk, ih hrest]

theorem dictGet_filter_none {α : Type} (p : (List PyVal × α) → Bool)
    (c : List (List PyVal × α)) (k : List PyVal) (h : dictGet c k = none) :
    dictGet (c.filter p) k = none := by
  rw [dictGet_none_iff]
  intro e he
  exact ((dictGet_none_iff _ _).1 h) e (List.mem_of_mem_filter he)

/-! ## The sweep is a filter on well-formed state -/

/-- Key distinctness of the cache dict (no two entries with `==`-equal keys). -/
def DistinctKeys (c : List AEntry) : Prop :=
  c.Pairwise (fun e1 e2 => pyListEq e1.1 e2.1 = false)

theorem foldl_sweepDel_cons (e : AEntry) :
    ∀ (ks : List (List PyVal)) (c : List AEntry) (ord : List (List PyVal)),
    (∀ k ∈ ks, pyListEq k e.1 = false) →
    ks.foldl sweepDel (e :: c, e.1 :: ord) =
      ((ks.foldl sweepDel (c, ord)).1.cons e,
       (ks.foldl sweepDel (c, ord)).2.cons e.1) := by
  intro ks
  induction ks with
  | nil => intro c ord _; simp
  | cons k ks ih =>
    intro c ord h
    have hk : pyListEq k e.1 = false := h k (by simp)
    have hstep : sweepDel (e :: c, e.1 :: ord) k =
        (e :: dictDel c k, e.1 :: listRemove ord k) := by
      simp [sweepDel, dictDel, listRemove, hk]
    rw [List.foldl_cons, hstep, ih _ _ (fun k2 hk2 => h k2 (by simp [hk2]))]
    rfl

theorem expiredKeys_subset (c : List AEntry) (t ttl : ℚ) :
    ∀ k ∈ expiredKeys c t ttl, ∃ e ∈ c, k = e.1 := by
  intro k hk
  simp only [expiredKeys, List.mem_map, List.mem_filter] at hk
  obtain ⟨e, ⟨he, _⟩, hke⟩ := hk
  exact ⟨e, he, hke.symm⟩

theorem asyncSweep_eq_filter (t ttl : ℚ) :
    ∀ (c : List AEntry), DistinctKeys c →
    asyncSweep c (c.map (·.1)) t ttl =
      (c.filter (aliveEntry t ttl), (c.filter (aliveEntry t ttl)).map (·.1)) := by
  intro c
  induction c with
  | nil => intro _; simp [asyncSweep, expiredKeys]
  | cons e rest ih =>
    intro hd
    have hd2 : DistinctKeys rest := (List.pairwise_cons.1 hd).2
    cases halive : aliveEntry t ttl e with
    | false =>
      have hdead : decide (ttl ≤ t - e.2.2) = true := by
        simp only [aliveEntry, decide_eq_false_iff_not, not_lt] at halive
        simpa using halive
      have hexp : expiredKeys (e :: rest) t ttl = e.1 :: expiredKeys rest t ttl := by
        simp [expiredKeys, List.filter_cons, hdead]
      have hstep : sweepDel (e :: rest, e.1 :: rest.map (·.1)) e.1 =
          (rest, rest.map (·.1)) := by
        simp [sweepDel, dictDel, listRemove, pyListEq_refl]
      rw [show (e :: rest).map (·.1) = e.1 :: rest.map (·.1) from rfl]
      rw [asyncSweep, hexp, List.foldl_cons, hstep]
      rw [asyncSweep] at ih
      rw [ih hd2, List.filter_cons, halive]
      simp
    | true =>
      have hexp : expiredKeys (e :: rest) t ttl = expiredKeys rest t ttl := by
        have : decide (ttl ≤ t - e.2.2) = false := by
          simp only [aliveEntry, decide_eq_true_eq] at halive
          simpa using not_le.2 halive
        simp [expiredKeys, List.filter_cons, this]
      have hks : ∀ k ∈ expiredKeys rest t ttl, pyListEq k e.1 = false := by
        intro k hk
        obtain ⟨e2, he2, hke2⟩ := expiredKeys_subset rest t ttl k hk
        have : pyListEq e.1 e2.1 = false := (List.pairwise_cons.1 hd).1 e2 he2
        cases hke : pyListEq k e.1 with
        | false => rfl
        | true =>
          subst hke2
          rw [pyListEq_symm hke] at this; cases this
      rw [show (e :: rest).map (·.1) = e.1 :: rest.map (·.1) from rfl]
      rw [asyncSweep, hexp, foldl_sweepDel_cons e _ _ _ hks]
      rw [asyncSweep] at ih
      rw [ih hd2, List.filter_cons, halive]
      simp

/-! ## Well-formedness of the async state, preserved by every operation -/

/-- Structural invariant of one async cache: `cache_order` is exactly the key
column of the dict `cache`; keys are pairwise distinct; insertion times are
nondecreasing along the dict order and lie in `[0, τ]`. -/
structure ACoreWF (c : List AEntry) (ord : List (List PyVal)) (τ : ℚ) : Prop where
  corr : c.map (·.1) = ord
  distinct : DistinctKeys c
  sorted : c.Pairwise (fun e1 e2 => e1.2.2 ≤ e2.2.2)
  bounds : ∀ e ∈ c, 0 ≤ e.2.2 ∧ e.2.2 ≤ τ

theorem ACoreWF.nil (τ : ℚ) : ACoreWF [] [] τ :=
  ⟨rfl, List.Pairwise.nil, List.Pairwise.nil, by simp⟩

theorem ACoreWF.mono {c ord τ τ2} (h : ACoreWF c ord τ) (hle : τ ≤ τ2) :
    ACoreWF c ord τ2 :=
  ⟨h.corr, h.distinct, h.sorted,
   fun e he => ⟨(h.bounds e he).1, le_trans (h.bounds e he).2 hle⟩⟩

theorem ACoreWF.filterAlive {c ord τ} (h : ACoreWF c ord τ) (t ttl : ℚ) :
    ACoreWF (c.filter (aliveEntry t ttl))
      ((c.filter (aliveEntry t ttl)).map (·.1)) τ :=
  ⟨rfl, List.Pairwise.sublist (List.filter_sublist c) h.distinct,
   List.Pairwise.sublist (List.filter_sublist c) h.sorted,
   fun e he => h.bounds e (List.mem_of_mem_filter he)⟩

theorem ACoreWF.tail {e : AEntry} {c ord τ} (h : ACoreWF (e :: c) ord τ) :
    ACoreWF c ord.tail τ := by
  refine ⟨?_, (List.pairwise_cons.1 h.distinct).2,
    (List.pairwise_cons.1 h.sorted).2,
    fun e2 he2 => h.bounds e2 (List.mem_cons_of_mem _ he2)⟩
  have := h.corr
  rw [List.map_cons] at this
  rw [← this]
  rfl

/-- On well-formed state the sweep is exactly the liveness filter. -/
theorem asyncSweep_wf {c ord τ} (h : ACoreWF c ord τ) (t ttl : ℚ) :
    asyncSweep c ord t ttl =
      (c.filter (aliveEntry t ttl), (c.filter (aliveEntry t ttl)).map (·.1)) := by
  rw [← h.corr]
  exact asyncSweep_eq_filter t ttl c h.distinct

theorem mem_filter_alive {c : List AEntry} {t ttl : ℚ} {e : AEntry}
    (h : e ∈ c.filter (aliveEntry t ttl)) : t - e.2.2 < ttl := by
  have := (List.mem_filter.1 h).2
  simpa [aliveEntry] using this

/-- Appending a fresh entry preserves well-formedness. -/
theorem ACoreWF.append {c ord τ} (h : ACoreWF c ord τ) (args : List PyVal)
    (v : PyVal) (t : ℚ) (hget : dictGet c args = none) (hτ : τ ≤ t)
    (h0 : 0 ≤ t) : ACoreWF (c ++ [(args, v, t)]) (ord ++ [args]) t := by
  refine ⟨?_, ?_, ?_, ?_⟩
  · rw [List.map_append, h.corr]; rfl
  · rw [DistinctKeys, List.pairwise_append]
    refine ⟨h.distinct, by simp, ?_⟩
    intro e he e2 he2
    rw [List.mem_singleton] at he2
    subst he2
    have := ((dictGet_none_iff _ _).1 hget) e he
    cases hcur : pyListEq e.1 args with
    | false => rfl
    | true => rw [pyListEq_symm hcur] at this; cases this
  · rw [List.pairwise_append]
    refine ⟨h.sorted, by simp, ?_⟩
    intro e he e2 he2
    rw [List.mem_singleton] at he2
    subst he2
    exact le_trans (h.bounds e he).2 hτ
  · intro e he
    rcases List.mem_append.1 he with hin | hin
    · exact ⟨(h.bounds e hin).1, le_trans (h.bounds e hin).2 hτ⟩
    · rw [List.mem_singleton] at hin
      subst hin
      exact ⟨h0, le_refl t⟩

/-- The miss path preserves well-formedness (at the call time). -/
theorem asyncMiss_wf {ε : Type} (cfg : CacheConfig)
    (producer : List PyVal → List (String × PyVal) → Except ε PyVal)
    {c ord τ} (t : ℚ) (args : List PyVal) (kwargs : List (String × PyVal))
    (hwf : ACoreWF c ord τ) (hget : dictGet c args = none) (hτ : τ ≤ t)
    (h0 : 0 ≤ t) :
    ACoreWF (asyncMiss cfg producer c ord t args kwargs).cache
      (asyncMiss cfg producer c ord t args kwargs).cache_order t := by
  rw [asyncMiss]
  cases hprod : producer args kwargs with
  | error e => exact hwf.mono hτ
  | ok v =>
    simp only [dictSet_eq_append c args (v, t) hget]
    have happ : ACoreWF (c ++ [(args, v, t)]) (ord ++ [args]) t :=
      hwf.append args v t hget hτ h0
    cases htr : maxsizeTruthy cfg.maxsize (ord ++ [args]).length with
    | false => simpa [htr] using happ
    | true =>
      simp only [htr, if_true]
      obtain ⟨e0, crest, hc⟩ :=
        List.exists_cons_of_ne_nil (l := c ++ [(args, v, t)]) (by cases c <;> simp)
      have hord : ord ++ [args] = e0.1 :: crest.map (·.1) := by
        rw [← happ.corr, hc, List.map_cons]
      rw [hc, hord]
      show ACoreWF (dictDel (e0 :: crest) e0.1) (crest.map (·.1)) t
      rw [show dictDel (e0 :: crest) e0.1 = crest by simp [dictDel, pyListEq_refl]]
      rw [hc, hord] at happ
      simpa using happ.tail

/-! ## Characterizing the core call on well-formed state -/

/-- On well-formed state, a live `==`-equal entry is served as a hit: the
producer does not run and the state change is exactly the sweep. -/
theorem asyncCore_hit {ε : Type} (cfg : CacheConfig)
    (producer : List PyVal → List (String × PyVal) → Except ε PyVal)
    {c : List AEntry} {ord : List (List PyVal)} {τ : ℚ}
    (t : ℚ) (args : List PyVal) (kwargs : List (String × PyVal))
    (hwf : ACoreWF c ord τ) {ent : PyVal × ℚ}
    (hget : dictGet (c.filter (aliveEntry t cfg.ttl)) args = some ent) :
    asyncCore cfg producer c ord t args kwargs =
      ⟨.ok ent.1, false, none, c.filter (aliveEntry t cfg.ttl),
       (c.filter (aliveEntry t cfg.ttl)).map (·.1)⟩ := by
  obtain ⟨kk, hmem, _⟩ := dictGet_some_mem _ _ _ hget
  have hlive : t - ent.2 < cfg.ttl := mem_filter_alive (e := (kk, ent)) hmem
  simp only [asyncCore, asyncSweep_wf hwf, hget, if_pos hlive]

/-- On well-formed state with no live `==`-equal entry, the call is the miss
path applied to the swept state. -/
theorem asyncCore_miss {ε : Type} (cfg : CacheConfig)
    (producer : List PyVal → List (String × PyVal) → Except ε PyVal)
    {c : List AEntry} {ord : List (List PyVal)} {τ : ℚ}
    (t : ℚ) (args : List PyVal) (kwargs : List (String × PyVal))
    (hwf : ACoreWF c ord τ)
    (hget : dictGet (c.filter (aliveEntry t cfg.ttl)) args = none) :
    asyncCore cfg producer c ord t args kwargs =
      asyncMiss cfg producer (c.filter (aliveEntry t cfg.ttl))
        ((c.filter (aliveEntry t cfg.ttl)).map (·.1)) t args kwargs := by
  simp only [asyncCore, asyncSweep_wf hwf, hget]

/-- Every core call preserves well-formedness, at the call's time. -/
theorem asyncCore_wf {ε : Type} (cfg : CacheConfig)
    (producer : List PyVal → List (String × PyVal) → Except ε PyVal)
    {c : List AEntry} {ord : List (List PyVal)} {τ : ℚ}
    (t : ℚ) (args : List PyVal) (kwargs : List (String × PyVal))
    (hwf : ACoreWF c ord τ) (hτ : τ ≤ t) (h0 : 0 ≤ t) :
    ACoreWF (asyncCore cfg producer c ord t args kwargs).cache
      (asyncCore cfg producer c ord t args kwargs).cache_order t := by
  cases hget : dictGet (c.filter (aliveEntry t cfg.ttl)) args with
  | some ent =>
    rw [asyncCore_hit cfg producer t args kwargs hwf hget]
    exact (hwf.filterAlive t cfg.ttl).mono hτ
  | none =>
    rw [asyncCore_miss cfg producer t args kwargs hwf hget]
    exact asyncMiss_wf cfg producer t args kwargs
      ((hwf.filterAlive t cfg.ttl).mono hτ) hget (le_refl t) h0

theorem asyncCall_state_cache {ε : Type} (cfg : CacheConfig) (producer)
    (st : AsyncState) (t : ℚ) (args : List PyVal)
    (kwargs : List (String × PyVal)) :
    (asyncCall (ε := ε) cfg producer st t args kwargs).state.cache =
      (asyncCore cfg producer st.cache st.cache_order t args kwargs).cache := rfl

theorem asyncCall_state_order {ε : Type} (cfg : CacheConfig) (producer)
    (st : AsyncState) (t : ℚ) (args : List PyVal)
    (kwargs : List (String × PyVal)) :
    (asyncCall (ε := ε) cfg producer st t args kwargs).state.cache_order =
      (asyncCore cfg producer st.cache st.cache_order t args kwargs).cache_order := rfl

theorem asyncInfo_state_cache (cfg : CacheConfig) (st : AsyncState) (t : ℚ) :
    (asyncInfo cfg st t).2.cache =
      (asyncSweep st.cache st.cache_order t cfg.ttl).1 := by
  simp only [asyncInfo]
  split <;> rfl

theorem asyncInfo_state_order (cfg : CacheConfig) (st : AsyncState) (t : ℚ) :
    (asyncInfo cfg st t).2.cache_order =
      (asyncSweep st.cache st.cache_order t cfg.ttl).2 := by
  simp only [asyncInfo]
  split <;> rfl

/-- Every reachable `async_cachettl` state is well-formed (and its time bound
is nonnegative). -/
theorem asyncReach_wf {cfg : CacheConfig} {st : AsyncState} {τ : ℚ}
    (h : AsyncReach cfg st τ) :
    ACoreWF st.cache st.cache_order τ ∧ 0 ≤ τ := by
  induction h with
  | init => exact ⟨ACoreWF.nil 0, le_refl 0⟩
  | @call st τ h producer t args kwargs ht ih =>
    exact ⟨asyncCore_wf cfg producer t args kwargs ih.1 ht (le_trans ih.2 ht),
           le_trans ih.2 ht⟩
  | @info st τ h t ht ih =>
    refine ⟨?_, le_trans ih.2 ht⟩
    have hs := asyncSweep_wf ih.1 t cfg.ttl
    have : ACoreWF (asyncSweep st.cache st.cache_order t cfg.ttl).1
        (asyncSweep st.cache st.cache_order t cfg.ttl).2 τ := by
      rw [hs]
      exact ih.1.filterAlive t cfg.ttl
    rw [asyncInfo_state_cache, asyncInfo_state_order]
    exact this.mono ht
  | @clear st τ h t ht ih => exact ⟨ACoreWF.nil t, le_trans ih.2 ht⟩

/-- Every reachable `async_cachettl_min` state is well-formed. -/
theorem asyncMinReach_wf {cfg : CacheConfig} {st : AsyncMinState} {τ : ℚ}
    (h : AsyncMinReach cfg st τ) :
    ACoreWF st.cache st.cache_order τ ∧ 0 ≤ τ := by
  induction h with
  | init => exact ⟨ACoreWF.nil 0, le_refl 0⟩
  | @call st τ h producer t args kwargs ht ih =>
    exact ⟨asyncCore_wf cfg producer t args kwargs ih.1 ht (le_trans ih.2 ht),
           le_trans ih.2 ht⟩

/-! ## Arithmetic of the time bucket -/

theorem truncQ_of_nonneg {q : ℚ} (h : 0 ≤ q) : truncQ q = ⌊q⌋ := if_pos h

theorem truncQ_mono_nonneg {a b : ℚ} (ha : 0 ≤ a) (hab : a ≤ b) :
    truncQ a ≤ truncQ b := by
  rw [truncQ_of_nonneg ha, truncQ_of_nonneg (le_trans ha hab)]
  exact Int.floor_le_floor hab

/-- Two nonnegative instants in the same `int(t / ttl)` bucket are less than
`ttl` apart. -/
theorem sub_lt_ttl_of_same_bucket {t0 t ttl : ℚ} (httl : 0 < ttl)
    (h0 : 0 ≤ t0) (hle : t0 ≤ t)
    (hb : truncQ (t0 / ttl) = truncQ (t / ttl)) : t - t0 < ttl := by
  rw [truncQ_of_nonneg (div_nonneg h0 (le_of_lt httl)),
      truncQ_of_nonneg (div_nonneg (le_trans h0 hle) (le_of_lt httl))] at hb
  have h1 : (⌊t0 / ttl⌋ : ℚ) ≤ t0 / ttl := Int.floor_le _
  have h2 : t / ttl < ⌊t / ttl⌋ + 1 := Int.lt_floor_add_one _
  rw [← hb] at h2
  have h3 : (t - t0) / ttl < 1 := by rw [sub_div]; push_cast at h1 h2 ⊢; linarith
  calc t - t0 = (t - t0) / ttl * ttl := by field_simp
  _ < 1 * ttl := mul_lt_mul_of_pos_right h3 httl
  _ = ttl := one_mul ttl

/-! ## Structure of flattened sync keys -/

def valI (a : PyVal) : KeyElemI := keyElemInterp (KeyElem.v a)

def isMarkI : KeyElemI → Bool
  | .mark => true
  | _ => false

def isTypI : KeyElemI → Bool
  | .typ _ => true
  | _ => false

theorem valI_isMark (a : PyVal) : isMarkI (valI a) = false := by
  simp only [valI, keyElemInterp]
  cases pyInterp a <;> rfl

theorem valI_isTyp (a : PyVal) : isTypI (valI a) = false := by
  simp only [valI, keyElemInterp]
  cases pyInterp a <;> rfl

theorem valI_inj {a b : PyVal} (h : valI a = valI b) : pyInterp a = pyInterp b := by
  simp only [valI, keyElemInterp] at h
  cases ha : pyInterp a <;> cases hb : pyInterp b <;>
    rw [ha, hb] at h <;> simp_all

theorem map_valI_inj : ∀ (a1 a2 : List PyVal), a1.map valI = a2.map valI →
    a1.map pyInterp = a2.map pyInterp := by
  intro a1
  induction a1 with
  | nil => intro a2 h; cases a2 with
    | nil => rfl
    | cons b l => cases h
  | cons a l ih =>
    intro a2 h
    cases a2 with
    | nil => cases h
    | cons b l2 =>
      simp only [List.map_cons, List.cons.injEq] at h ⊢
      exact ⟨valI_inj h.1, ih l2 h.2⟩

/-- Generic list splitting at a discriminated separator: with separator-free
prefixes and matching separators, equal lists split equally. -/
theorem split_at_sep {β : Type} (d : β → Bool) :
    ∀ (A1 A2 R1 R2 : List β) (s1 s2 : β),
    (∀ x ∈ A1, d x = false) → (∀ x ∈ A2, d x = false) →
    d s1 = true → d s2 = true →
    A1 ++ s1 :: R1 = A2 ++ s2 :: R2 →
    A1 = A2 ∧ s1 = s2 ∧ R1 = R2 := by
  intro A1
  induction A1 with
  | nil =>
    intro A2 R1 R2 s1 s2 h1 h2 hs1 hs2 heq
    cases A2 with
    | nil => simpa using heq
    | cons a A2 =>
      simp only [List.nil_append, List.cons_append, List.cons.injEq] at heq
      rw [heq.1, h2 a (by simp)] at hs1
      cases hs1
  | cons a A1 ih =>
    intro A2 R1 R2 s1 s2 h1 h2 hs1 hs2 heq
    cases A2 with
    | nil =>
      simp only [List.nil_append, List.cons_append, List.cons.injEq] at heq
      rw [← heq.1, h1 a (by simp)] at hs2
      cases hs2
    | cons b A2 =>
      simp only [List.cons_append, List.cons.injEq] at heq
      obtain ⟨hA, hs, hR⟩ := ih A2 R1 R2 s1 s2
        (fun x hx => h1 x (by simp [hx])) (fun x hx => h2 x (by simp [hx]))
        hs1 hs2 heq.2
      exact ⟨by rw [heq.1, hA], hs, hR⟩

/-- Interpreted keyword-item elements of a kwargs dict. -/
def kwIElems (kwds : List (String × PyVal)) : List KeyElemI :=
  kwds.foldr (fun p acc => KeyElemI.nm p.1 :: valI p.2 :: acc) []

theorem kwIElems_append : ∀ (l1 l2 : List (String × PyVal)),
    kwIElems (l1 ++ l2) = kwIElems l1 ++ kwIElems l2 := by
  intro l1 l2
  induction l1 with
  | nil => rfl
  | cons p rest ih => simp [kwIElems] at ih ⊢; rw [ih]

theorem mem_kwIElems_nonmark : ∀ (kwds : List (String × PyVal)),
    ∀ x ∈ kwIElems kwds, isMarkI x = false := by
  intro kwds
  induction kwds with
  | nil => intro x hx; cases hx
  | cons p rest ih =>
    intro x hx
    simp only [kwIElems, List.foldr_cons, List.mem_cons] at hx
    rcases hx with h | h | h
    · rw [h]; rfl
    · rw [h]; exact valI_isMark p.2
    · exact ih x h

theorem mem_kwIElems_nontyp : ∀ (kwds : List (String × PyVal)),
    ∀ x ∈ kwIElems kwds, isTypI x = false := by
  intro kwds
  induction kwds with
  | nil => intro x hx; cases hx
  | cons p rest ih =>
    intro x hx
    simp only [kwIElems, List.foldr_cons, List.mem_cons] at hx
    rcases hx with h | h | h
    · rw [h]; rfl
    · rw [h]; exact valI_isTyp p.2
    · exact ih x h

theorem kwfold_interp : ∀ (kwds : List (String × PyVal)),
    (kwds.foldr (fun p acc => KeyElem.name p.1 :: KeyElem.v p.2 :: acc)
        []).map keyElemInterp = kwIElems kwds := by
  intro kwds
  induction kwds with
  | nil => rfl
  | cons p rest ih =>
    show keyElemInterp (KeyElem.name p.1) :: keyElemInterp (KeyElem.v p.2) ::
        (rest.foldr (fun p acc => KeyElem.name p.1 :: KeyElem.v p.2 :: acc)
          []).map keyElemInterp =
      KeyElemI.nm p.1 :: valI p.2 :: kwIElems rest
    rw [ih]
    rfl

/-- The interpreted image of a `_make_key` tuple with keyword arguments. -/
theorem make_key_interp (args : List PyVal) (kwds : List (String × PyVal))
    (ty : Bool) (hne : kwds.isEmpty = false) :
    (make_key args kwds ty).map keyElemInterp =
      args.map valI ++ KeyElemI.mark :: (kwIElems kwds ++
        (if ty then args.map (fun a => KeyElemI.typ (pyType a)) ++
           kwds.map (fun p => KeyElemI.typ (pyType p.2)) else [])) := by
  cases ty with
  | false =>
    simp only [make_key, hne, Bool.false_eq_true, if_false, List.map_append,
      List.map_cons, List.map_map, kwfold_interp, List.append_nil]
    rfl
  | true =>
    simp only [make_key, hne, Bool.false_eq_true, if_false, if_true,
      List.map_append, List.map_cons, List.map_map, kwfold_interp,
      List.append_assoc, List.cons_append]
    rfl

/-- The interpreted image of one sync lru key. -/
theorem syncFlatKey_interp (ty : Bool) (k : SyncKey) :
    (syncFlatKey ty k).map keyElemInterp =
      k.args.map valI ++ KeyElemI.mark ::
        ((kwIElems k.kwargs ++
          [KeyElemI.nm TIMEMOD, KeyElemI.num (k.modificator : ℚ)]) ++
         (if ty then k.args.map (fun a => KeyElemI.typ (pyType a)) ++
            (k.kwargs ++ [(TIMEMOD, PyVal.vint k.modificator)]).map
              (fun p => KeyElemI.typ (pyType p.2)) else [])) := by
  have hne : (k.kwargs ++ [(TIMEMOD, PyVal.vint k.modificator)]).isEmpty = false := by
    cases k.kwargs <;> rfl
  rw [syncFlatKey, make_key_interp _ _ _ hne, kwIElems_append]
  have : kwIElems [(TIMEMOD, PyVal.vint k.modificator)] =
      [KeyElemI.nm TIMEMOD, KeyElemI.num (k.modificator : ℚ)] := by
    simp [kwIElems, valI, keyElemInterp, pyInterp]
  rw [this, List.append_assoc]

/-- Equal flattened keys decompose: equal interpreted argument columns, and
equal interpreted keyword-plus-modificator segments. -/
theorem syncKeyEq_parts {ty : Bool} {k1 k2 : SyncKey}
    (h : syncKeyEq ty k1 k2 = true) :
    k1.args.map valI = k2.args.map valI ∧
    kwIElems k1.kwargs ++
        [KeyElemI.nm TIMEMOD, KeyElemI.num (k1.modificator : ℚ)] =
      kwIElems k2.kwargs ++
        [KeyElemI.nm TIMEMOD, KeyElemI.num (k2.modificator : ℚ)] := by
  rw [syncKeyEq, keyListEq_iff, syncFlatKey_interp, syncFlatKey_interp] at h
  obtain ⟨hA, _, hR⟩ := split_at_sep isMarkI _ _ _ _ KeyElemI.mark KeyElemI.mark
    (fun x hx => by obtain ⟨a, _, rfl⟩ := List.mem_map.1 hx; exact valI_isMark a)
    (fun x hx => by obtain ⟨a, _, rfl⟩ := List.mem_map.1 hx; exact valI_isMark a)
    rfl rfl h
  refine ⟨hA, ?_⟩
  cases ty with
  | false => simpa using hR
  | true =>
    simp only [if_true] at hR
    have hne1 : (k1.kwargs ++ [(TIMEMOD, PyVal.vint k1.modificator)]).map
        (fun p => KeyElemI.typ (pyType p.2)) ≠ [] := by simp
    have hne2 : (k2.kwargs ++ [(TIMEMOD, PyVal.vint k2.modificator)]).map
        (fun p => KeyElemI.typ (pyType p.2)) ≠ [] := by simp
    have htot1 : k1.args.map (fun a => KeyElemI.typ (pyType a)) ++
        (k1.kwargs ++ [(TIMEMOD, PyVal.vint k1.modificator)]).map
          (fun p => KeyElemI.typ (pyType p.2)) ≠ [] := by
      intro hcon
      exact hne1 (List.append_eq_nil.1 hcon).2
    have htot2 : k2.args.map (fun a => KeyElemI.typ (pyType a)) ++
        (k2.kwargs ++ [(TIMEMOD, PyVal.vint k2.modificator)]).map
          (fun p => KeyElemI.typ (pyType p.2)) ≠ [] := by
      intro hcon
      exact hne2 (List.append_eq_nil.1 hcon).2
    obtain ⟨t1, ts1, hT1⟩ := List.exists_cons_of_ne_nil htot1
    obtain ⟨t2, ts2, hT2⟩ := List.exists_cons_of_ne_nil htot2
    rw [hT1, hT2] at hR
    have hmemT : ∀ (args : List PyVal) (kwds : List (String × PyVal)) (x : KeyElemI),
        x ∈ args.map (fun a => KeyElemI.typ (pyType a)) ++
          kwds.map (fun p => KeyElemI.typ (pyType p.2)) → isTypI x = true := by
      intro args kwds x hx
      rcases List.mem_append.1 hx with hx | hx <;>
        · obtain ⟨a, _, rfl⟩ := List.mem_map.1 hx; rfl
    have hpre : ∀ (kw : List (String × PyVal)) (m : ℤ) (x : KeyElemI),
        x ∈ kwIElems kw ++ [KeyElemI.nm TIMEMOD, KeyElemI.num (m : ℚ)] →
        isTypI x = false := by
      intro kw m x hx
      rcases List.mem_append.1 hx with hx | hx
      · exact mem_kwIElems_nontyp kw x hx
      · rcases List.mem_cons.1 hx with h1 | h1
        · rw [h1]; rfl
        · rw [List.mem_singleton.1 h1]; rfl
    obtain ⟨hP, _, _⟩ := split_at_sep isTypI _ _ _ _ _ _
      (hpre k1.kwargs k1.modificator) (hpre k2.kwargs k2.modificator)
      (hmemT k1.args _ t1 (by rw [hT1]; simp))
      (hmemT k2.args _ t2 (by rw [hT2]; simp)) hR
    exact hP

/-- Equal lru keys carry the same `__time_modificator` bucket. -/
theorem syncKeyEq_mod {ty : Bool} {k1 k2 : SyncKey}
    (h : syncKeyEq ty k1 k2 = true) : k1.modificator = k2.modificator := by
  have hp := (syncKeyEq_parts h).2
  have hrev := congrArg List.reverse hp
  simp only [List.reverse_append, List.reverse_cons, List.reverse_nil,
    List.nil_append, List.cons_append, List.cons.injEq,
    KeyElemI.num.injEq] at hrev
  exact_mod_cast hrev.1

/-- Equal lru keys have `==`-equal positional argument tuples. -/
theorem syncKeyEq_args {ty : Bool} {k1 k2 : SyncKey}
    (h : syncKeyEq ty k1 k2 = true) : pyListEq k1.args k2.args = true := by
  rw [pyListEq_iff]
  exact map_valI_inj _ _ (syncKeyEq_parts h).1

/-! ## Sync lookup lemmas and the sync invariant -/

theorem lruLookup_none_iff (typed : Bool) :
    ∀ (l : List SyncEntry) (k : SyncKey),
    lruLookup typed l k = none ↔ ∀ e ∈ l, syncKeyEq typed k e.key = false := by
  intro l k
  induction l with
  | nil => simp [lruLookup]
  | cons e rest ih =>
    cases h : syncKeyEq typed k e.key with
    | true => simp [lruLookup, h]
    | false => simp [lruLookup, h, ih]

theorem lruLookup_some_mem {typed : Bool} :
    ∀ {l : List SyncEntry} {k : SyncKey} {e : SyncEntry},
    lruLookup typed l k = some e → e ∈ l ∧ syncKeyEq typed k e.key = true := by
  intro l
  induction l with
  | nil => intro k e h; cases h
  | cons e0 rest ih =>
    intro k e h
    cases h0 : syncKeyEq typed k e0.key with
    | true =>
      rw [lruLookup, if_pos h0] at h
      cases h
      exact ⟨List.mem_cons_self _ _, h0⟩
    | false =>
      rw [lruLookup, if_neg (by simp [h0])] at h
      obtain ⟨hm, hk⟩ := ih h
      exact ⟨List.mem_cons_of_mem _ hm, hk⟩

theorem lruLookup_isSome_of_mem {typed : Bool} :
    ∀ {l : List SyncEntry} {k : SyncKey} {e : SyncEntry},
    e ∈ l → syncKeyEq typed k e.key = true →
    (lruLookup typed l k).isSome = true := by
  intro l
  induction l with
  | nil => intro k e h; cases h
  | cons e0 rest ih =>
    intro k e hmem heq
    cases h0 : syncKeyEq typed k e0.key with
    | true => simp [lruLookup, h0]
    | false =>
      rcases List.mem_cons.1 hmem with rfl | hmem2
      · rw [h0] at heq; cases heq
      · simp only [lruLookup, h0, Bool.false_eq_true, if_false]
        exact ih hmem2 heq

theorem mem_of_mem_lruRemove {typed : Bool} :
    ∀ {l : List SyncEntry} {k : SyncKey} {e : SyncEntry},
    e ∈ lruRemove typed l k → e ∈ l := by
  intro l
  induction l with
  | nil => intro k e h; cases h
  | cons e0 rest ih =>
    intro k e h
    rw [lruRemove] at h
    by_cases h0 : syncKeyEq typed k e0.key = true
    · rw [if_pos h0] at h; exact List.mem_cons_of_mem _ h
    · rw [if_neg h0] at h
      rcases List.mem_cons.1 h with rfl | h2
      · simp
      · exact List.mem_cons_of_mem _ (ih h2)

theorem mem_of_mem_lruMoveToFront {typed : Bool} {l : List SyncEntry}
    {k : SyncKey} {e : SyncEntry} (h : e ∈ lruMoveToFront typed l k) : e ∈ l := by
  rw [lruMoveToFront] at h
  cases hlk : lruLookup typed l k with
  | none => rw [hlk] at h; exact h
  | some e0 =>
    rw [hlk] at h
    rcases List.mem_cons.1 h with rfl | h2
    · exact (lruLookup_some_mem hlk).1
    · exact mem_of_mem_lruRemove h2

theorem lruRemove_length {typed : Bool} :
    ∀ {l : List SyncEntry} {k : SyncKey} {e : SyncEntry},
    lruLookup typed l k = some e →
    (lruRemove typed l k).length + 1 = l.length := by
  intro l
  induction l with
  | nil => intro k e h; cases h
  | cons e0 rest ih =>
    intro k e h
    by_cases h0 : syncKeyEq typed k e0.key = true
    · rw [lruRemove, if_pos h0]; rfl
    · rw [lruLookup, if_neg h0] at h
      rw [lruRemove, if_neg h0, List.length_cons, List.length_cons, ih h]

theorem lruMoveToFront_length (typed : Bool) (l : List SyncEntry) (k : SyncKey) :
    (lruMoveToFront typed l k).length = l.length := by
  rw [lruMoveToFront]
  cases hlk : lruLookup typed l k with
  | none => rfl
  | some e0 => rw [List.length_cons, lruRemove_length hlk]

/-- Invariant of reachable sync states: every lru entry was inserted at a
nonnegative time within the bound, its stored bucket is the bucket of its
insertion time, and the lru respects `maxsize`. -/
structure SyncWF (cfg : CacheConfig) (st : SyncState) (τ : ℚ) : Prop where
  entries : ∀ e ∈ st.lru, 0 ≤ e.insertedAt ∧ e.insertedAt ≤ τ ∧
    e.key.modificator = truncQ (e.insertedAt / cfg.ttl)
  size : ∀ n, cfg.maxsize = some n → st.lru.length ≤ n

theorem syncReach_wf {cfg : CacheConfig} {st : SyncState} {τ : ℚ}
    (h : SyncReach cfg st τ) : SyncWF cfg st τ ∧ 0 ≤ τ := by
  induction h with
  | init =>
    refine ⟨⟨?_, ?_⟩, le_refl 0⟩
    · intro e he; cases he
    · intro n _; simp [syncClear]
  | @call st τ h producer t args kwargs ht ih =>
    have h0t : 0 ≤ t := le_trans ih.2 ht
    refine ⟨?_, h0t⟩
    rw [syncCall]
    cases hlk : lruLookup cfg.typed st.lru ⟨args, kwargs, truncQ (t / cfg.ttl)⟩ with
    | some e =>
      refine ⟨?_, ?_⟩
      · intro e2 he2
        simp only [] at he2
        have hmem : e2 ∈ st.lru := by
          by_cases hms : cfg.maxsize.isSome
          · rw [if_pos hms] at he2
            exact mem_of_mem_lruMoveToFront he2
          · rw [if_neg hms] at he2; exact he2
        obtain ⟨ha, hb, hc⟩ := ih.1.entries e2 hmem
        exact ⟨ha, le_trans hb ht, hc⟩
      · intro n hn
        simp only []
        rw [if_pos (by rw [hn]; rfl), lruMoveToFront_length]
        exact ih.1.size n hn
    | none =>
      cases hprod : producer args kwargs with
      | error err =>
        refine ⟨?_, ?_⟩
        · intro e2 he2
          simp only [] at he2
          obtain ⟨ha, hb, hc⟩ := ih.1.entries e2 he2
          exact ⟨ha, le_trans hb ht, hc⟩
        · intro n hn
          exact ih.1.size n hn
      | ok v =>
        have hnewmem : ∀ e2 ∈ SyncEntry.mk ⟨args, kwargs, truncQ (t / cfg.ttl)⟩ v t
            :: st.lru, 0 ≤ e2.insertedAt ∧ e2.insertedAt ≤ t ∧
            e2.key.modificator = truncQ (e2.insertedAt / cfg.ttl) := by
          intro e2 he2
          rcases List.mem_cons.1 he2 with rfl | h2
          · exact ⟨h0t, le_refl t, rfl⟩
          · obtain ⟨ha, hb, hc⟩ := ih.1.entries e2 h2
            exact ⟨ha, le_trans hb ht, hc⟩
        refine ⟨?_, ?_⟩
        · intro e2 he2
          simp only [] at he2
          cases hms : cfg.maxsize with
          | none => rw [hms] at he2; exact hnewmem e2 he2
          | some n =>
            rw [hms] at he2
            exact hnewmem e2 (List.take_subset n _ he2)
        · intro n hn
          simp only [hn]
          rw [List.length_take]
          exact min_le_left n _
  | @clear st τ h t ht ih =>
    refine ⟨⟨?_, ?_⟩, le_trans ih.2 ht⟩
    · intro e he; cases he
    · intro n _; simp [syncClear]

/-! ## Small helper lemmas for the claim theorems -/

theorem asyncMiss_invoked {ε : Type} (cfg : CacheConfig)
    (producer : List PyVal → List (String × PyVal) → Except ε PyVal)
    (c : List AEntry) (ord : List (List PyVal)) (t : ℚ) (args : List PyVal)
    (kwargs : List (String × PyVal)) :
    (asyncMiss cfg producer c ord t args kwargs).invoked = true := by
  rw [asyncMiss]
  cases producer args kwargs with
  | error e => rfl
  | ok v =>
    dsimp only
    split
    · split <;> rfl
    · rfl

theorem mem_dictDel {α : Type} :
    ∀ (c : List (List PyVal × α)) (k : List PyVal) (e : List PyVal × α),
    e ∈ c → pyListEq k e.1 = false → e ∈ dictDel c k := by
  intro c k e hmem hne
  induction c with
  | nil => cases hmem
  | cons e0 rest ih =>
    rw [dictDel]
    by_cases h0 : pyListEq k e0.1 = true
    · rw [if_pos h0]
      rcases List.mem_cons.1 hmem with rfl | h2
      · rw [h0] at hne; cases hne
      · exact h2
    · rw [if_neg h0]
      rcases List.mem_cons.1 hmem with rfl | h2
      · simp
      · exact List.mem_cons_of_mem _ (ih h2)

theorem maxsizeTruthy_some (n l : ℕ) :
    maxsizeTruthy (some n) l = true ↔ n ≠ 0 ∧ n < l := by
  simp [maxsizeTruthy]

theorem maxsizeTruthy_one (ms : Option ℕ) : maxsizeTruthy ms 1 = false := by
  cases ms with
  | none => rfl
  | some n =>
    rw [← Bool.not_eq_true, maxsizeTruthy_some]
    push_neg
    intro
    omega

theorem asyncSweep_noop {c : List AEntry} {ord : List (List PyVal)} {t ttl : ℚ}
    (h : ∀ e ∈ c, t - e.2.2 < ttl) : asyncSweep c ord t ttl = (c, ord) := by
  have : expiredKeys c t ttl = [] := by
    rw [expiredKeys, List.map_eq_nil_iff, List.filter_eq_nil_iff]
    intro e he
    simpa using h e he
  rw [asyncSweep, this]
  rfl

theorem nodup_of_distinct {c : List AEntry} (h : DistinctKeys c) :
    (c.map (·.1)).Nodup := by
  refine List.Pairwise.map _ ?_ h
  intro e1 e2 h12 heq
  rw [heq, pyListEq_refl] at h12
  cases h12

/-- A hit-free `==`-equal lookup on the unswept cache follows from a hit-free
`==`-equal lookup on the live part, given distinct keys. -/
theorem asyncIsHit_of_filter_some {cfg : CacheConfig} {st : AsyncState} {t : ℚ}
    {args : List PyVal} {ent : PyVal × ℚ}
    (hd : DistinctKeys st.cache)
    (hget : dictGet (st.cache.filter (aliveEntry t cfg.ttl)) args = some ent) :
    asyncIsHit cfg st t args = true := by
  obtain ⟨kk, hmem, hkk⟩ := dictGet_some_mem _ _ _ hget
  have hlive : t - ent.2 < cfg.ttl := mem_filter_alive (e := (kk, ent)) hmem
  have hmem2 : (kk, ent) ∈ st.cache := List.mem_of_mem_filter hmem
  have : dictGet st.cache args = some ent :=
    dictGet_eq_of_mem st.cache args kk ent hd hmem2 hkk
  rw [asyncIsHit, this]
  simpa using hlive

/-- The freshly produced entry is in the cache after a miss with a successful
producer (the capacity check never evicts the entry it just inserted). -/
theorem asyncMiss_self_mem {ε : Type} (cfg : CacheConfig)
    (producer : List PyVal → List (String × PyVal) → Except ε PyVal)
    {c : List AEntry} {ord : List (List PyVal)} (t : ℚ) (args : List PyVal)
    (kwargs : List (String × PyVal)) {v : PyVal}
    (hget : dictGet c args = none) (hcorr : c.map (·.1) = ord)
    (hp : producer args kwargs = .ok v) :
    (args, v, t) ∈ (asyncMiss cfg producer c ord t args kwargs).cache := by
  rw [asyncMiss, hp]
  dsimp only
  rw [dictSet_eq_append c args (v, t) hget]
  split
  · rename_i htr
    cases hc : c with
    | nil =>
      rw [hc] at hcorr
      rw [← hcorr] at htr
      simp only [List.map_nil, List.nil_append, List.length_cons,
        List.length_nil] at htr
      rw [maxsizeTruthy_one] at htr
      cases htr
    | cons e0 crest =>
      have hord : ord ++ [args] = e0.1 :: (crest.map (·.1) ++ [args]) := by
        rw [← hcorr, hc]
        simp
      rw [hord]
      dsimp only
      rw [show dictDel (e0 :: crest ++ [(args, v, t)]) e0.1 =
          crest ++ [(args, v, t)] from by
        simp [dictDel, pyListEq_refl]]
      simp
  · simp

/-! ## Claim theorems -/

/-- C10: in the suspending facades, after every sequentially completed
operation (a call, `cache_info()`, or `cache_clear()`), the list `cache_order`
contains exactly the keys present in the dict `cache`, each exactly once: the
key column of `cache` equals `cache_order`, which has no duplicates (for
`async_cachettl` and `async_cachettl_min` alike). -/
theorem C10_cache_order_correspondence :
    (∀ (cfg : CacheConfig) (st : AsyncState) (τ : ℚ), AsyncReach cfg st τ →
      st.cache.map (·.1) = st.cache_order ∧ st.cache_order.Nodup) ∧
    (∀ (cfg : CacheConfig) (st : AsyncMinState) (τ : ℚ), AsyncMinReach cfg st τ →
      st.cache.map (·.1) = st.cache_order ∧ st.cache_order.Nodup) := by
  constructor
  · intro cfg st τ h
    obtain ⟨hwf, _⟩ := asyncReach_wf h
    refine ⟨hwf.corr, ?_⟩
    rw [← hwf.corr]
    exact nodup_of_distinct hwf.distinct
  · intro cfg st τ h
    obtain ⟨hwf, _⟩ := asyncMinReach_wf h
    refine ⟨hwf.corr, ?_⟩
    rw [← hwf.corr]
    exact nodup_of_distinct hwf.distinct

/-- Witness for C10 at concrete reachable states (after one call each). -/
theorem C10_cache_order_correspondence_witness :
    ((asyncCall (ε := Unit) ⟨10, none, false⟩ (fun _ _ => .ok (.vint 7))
        asyncClear 1 [.vint 1] []).state.cache.map (·.1) =
      (asyncCall (ε := Unit) ⟨10, none, false⟩ (fun _ _ => .ok (.vint 7))
        asyncClear 1 [.vint 1] []).state.cache_order ∧
     (asyncCall (ε := Unit) ⟨10, none, false⟩ (fun _ _ => .ok (.vint 7))
        asyncClear 1 [.vint 1] []).state.cache_order.Nodup) ∧
    ((asyncMinCall (ε := Unit) ⟨10, none, false⟩ (fun _ _ => .ok (.vint 7))
        ⟨[], []⟩ 1 [.vint 1] []).2.cache.map (·.1) =
      (asyncMinCall (ε := Unit) ⟨10, none, false⟩ (fun _ _ => .ok (.vint 7))
        ⟨[], []⟩ 1 [.vint 1] []).2.cache_order ∧
     (asyncMinCall (ε := Unit) ⟨10, none, false⟩ (fun _ _ => .ok (.vint 7))
        ⟨[], []⟩ 1 [.vint 1] []).2.cache_order.Nodup) :=
  ⟨C10_cache_order_correspondence.1 ⟨10, none, false⟩ _ 1
    (AsyncReach.call AsyncReach.init (fun _ _ => .ok (.vint 7)) 1 [.vint 1] []
      (by norm_num)),
   C10_cache_order_correspondence.2 ⟨10, none, false⟩ _ 1
    (AsyncMinReach.call AsyncMinReach.init (fun _ _ => .ok (.vint 7)) 1
      [.vint 1] [] (by norm_num))⟩

/-- C9 counterexample: in the sync facade, a failed producer call on an empty
store leaves the store empty yet counts a miss, so a snapshot taken with the
empty store reports `misses = 1`, not `0`. -/
theorem C9_counterexample :
    (syncInfo ⟨10, none, false⟩
      (syncCall (ε := Unit) ⟨10, none, false⟩ (fun _ _ => .error ())
        syncClear 0 [.vint 1] []).state 0).currsize = 0 ∧
    (syncInfo ⟨10, none, false⟩
      (syncCall (ε := Unit) ⟨10, none, false⟩ (fun _ _ => .error ())
        syncClear 0 [.vint 1] []).state 0).misses = 1 :=
  ⟨rfl, rfl⟩

/-- C9 amended: the reset-on-empty bookkeeping holds in the suspending facade
(any `cache_info` snapshot whose reported `currsize` is `0` reports
`hits = 0` and `misses = 0`, and a snapshot after `cache_clear` reports all
zeros); the sync facade resets its counters only via `cache_clear`, whose
subsequent snapshot reports all zeros, but a failed call can leave an empty
sync store with a nonzero miss counter. -/
theorem C9_amended :
    (∀ (cfg : CacheConfig) (st : AsyncState) (t : ℚ),
      (asyncInfo cfg st t).1.currsize = 0 →
      (asyncInfo cfg st t).1.hits = 0 ∧ (asyncInfo cfg st t).1.misses = 0) ∧
    (∀ (cfg : CacheConfig) (t : ℚ),
      (asyncInfo cfg asyncClear t).1 =
        CacheInfoT.mk 0 0 cfg.maxsize 0 0) ∧
    (∀ (cfg : CacheConfig) (t : ℚ),
      syncInfo cfg syncClear t = CacheInfoT.mk 0 0 cfg.maxsize 0 0) := by
  refine ⟨?_, ?_, ?_⟩
  · intro cfg st t h
    simp only [asyncInfo] at h ⊢
    by_cases hsw : (asyncSweep st.cache st.cache_order t cfg.ttl).1 = []
    · rw [if_pos hsw]
      exact ⟨rfl, rfl⟩
    · rw [if_neg hsw] at h
      exact absurd (List.length_eq_zero.1 h) hsw
  · intro cfg t; rfl
  · intro cfg t; rfl

/-- Witness for C9 at concrete inputs. -/
theorem C9_amended_witness :
    ((asyncInfo ⟨10, none, false⟩ asyncClear 0).1.hits = 0 ∧
     (asyncInfo ⟨10, none, false⟩ asyncClear 0).1.misses = 0) ∧
    (asyncInfo ⟨10, none, false⟩ asyncClear 5).1 =
      CacheInfoT.mk 0 0 none 0 0 ∧
    syncInfo ⟨10, none, false⟩ syncClear 5 = CacheInfoT.mk 0 0 none 0 0 :=
  ⟨C9_amended.1 ⟨10, none, false⟩ asyncClear 0 rfl,
   C9_amended.2.1 ⟨10, none, false⟩ 5,
   C9_amended.2.2 ⟨10, none, false⟩ 5⟩

/-- C5 (code bug in `async_cachettl`): with `typed=True`, the sync facade
keeps `f(3)` and `f(3.0)` as two distinct entries, but the suspending facade
ignores `typed` entirely and keys by Python `==` alone, so the call `f(3.0)`
is served from the entry cached for `f(3)` — contradicting the decorator's own
docstring ("f(3.0) and f(3) will be treated as distinct calls"). -/
theorem C5_typed_discrimination :
    (asyncCall (ε := Unit) ⟨10, none, true⟩ (fun _ _ => .ok (.vint 200))
        (asyncCall (ε := Unit) ⟨10, none, true⟩ (fun _ _ => .ok (.vint 100))
          asyncClear 0 [.vint 3] []).state 1 [.vfloat 3] []).result =
      .ok (.vint 100) ∧
    (asyncCall (ε := Unit) ⟨10, none, true⟩ (fun _ _ => .ok (.vint 200))
        (asyncCall (ε := Unit) ⟨10, none, true⟩ (fun _ _ => .ok (.vint 100))
          asyncClear 0 [.vint 3] []).state 1 [.vfloat 3] []).invoked = false ∧
    (asyncCall (ε := Unit) ⟨10, none, true⟩ (fun _ _ => .ok (.vint 200))
        (asyncCall (ε := Unit) ⟨10, none, true⟩ (fun _ _ => .ok (.vint 100))
          asyncClear 0 [.vint 3] []).state 1 [.vfloat 3] []).state.cache.length
      = 1 ∧
    (syncCall (ε := Unit) ⟨10, none, true⟩ (fun _ _ => .ok (.vint 200))
        (syncCall (ε := Unit) ⟨10, none, true⟩ (fun _ _ => .ok (.vint 100))
          syncClear 0 [.vint 3] []).state 1 [.vfloat 3] []).invoked = true ∧
    (syncCall (ε := Unit) ⟨10, none, true⟩ (fun _ _ => .ok (.vint 200))
        (syncCall (ε := Unit) ⟨10, none, true⟩ (fun _ _ => .ok (.vint 100))
          syncClear 0 [.vint 3] []).state 1 [.vfloat 3] []).state.lru.length
      = 2 := by
  have h0 : truncQ (0 : ℚ) = 0 := by norm_num [truncQ]
  have h1 : truncQ ((0 : ℚ) / 10) = 0 := by norm_num [truncQ]
  have h2 : truncQ ((1 : ℚ) / 10) = 0 := by norm_num [truncQ]
  have hty : ¬(PyType.tFloat = PyType.tInt) := by decide
  refine ⟨?_, ?_, ?_, ?_, ?_⟩ <;>
    norm_num [asyncCall, asyncCore, asyncSweep, expiredKeys, sweepDel,
      asyncMiss, dictGet, dictSet, maxsizeTruthy, aliveEntry, pyListEq, pyEq,
      asyncClear, syncCall, h0, h1, h2, hty, lruLookup, syncKeyEq, syncFlatKey,
      make_key, keyListEq, keyElemEq, TIMEMOD, syncClear, pyType, List.filter]

/-! ## asyncInfo on well-formed state -/

theorem asyncCall_invoked {ε : Type} (cfg : CacheConfig) (producer)
    (st : AsyncState) (t : ℚ) (args : List PyVal)
    (kwargs : List (String × PyVal)) :
    (asyncCall (ε := ε) cfg producer st t args kwargs).invoked =
      (asyncCore cfg producer st.cache st.cache_order t args kwargs).invoked :=
  rfl

theorem asyncCall_result {ε : Type} (cfg : CacheConfig) (producer)
    (st : AsyncState) (t : ℚ) (args : List PyVal)
    (kwargs : List (String × PyVal)) :
    (asyncCall (ε := ε) cfg producer st t args kwargs).result =
      (asyncCore cfg producer st.cache st.cache_order t args kwargs).result :=
  rfl

theorem asyncCall_evicted {ε : Type} (cfg : CacheConfig) (producer)
    (st : AsyncState) (t : ℚ) (args : List PyVal)
    (kwargs : List (String × PyVal)) :
    (asyncCall (ε := ε) cfg producer st t args kwargs).evicted =
      (asyncCore cfg producer st.cache st.cache_order t args kwargs).evicted :=
  rfl

theorem asyncInfo_spec_nil {cfg : CacheConfig} {st : AsyncState} {τ t : ℚ}
    (hwf : ACoreWF st.cache st.cache_order τ)
    (hfe : st.cache.filter (aliveEntry t cfg.ttl) = []) :
    asyncInfo cfg st t = (⟨0, 0, cfg.maxsize, 0, 0⟩, ⟨[], [], 0, 0⟩) := by
  have hsw := asyncSweep_wf hwf t cfg.ttl
  rw [hfe] at hsw
  simp only [asyncInfo, hsw]
  simp

theorem asyncInfo_spec_cons {cfg : CacheConfig} {st : AsyncState} {τ t : ℚ}
    {e0 : AEntry} {rest : List AEntry}
    (hwf : ACoreWF st.cache st.cache_order τ)
    (hfe : st.cache.filter (aliveEntry t cfg.ttl) = e0 :: rest) :
    asyncInfo cfg st t =
      (⟨st.hits, st.misses, cfg.maxsize, (e0 :: rest).length,
        cfg.ttl - (t - e0.2.2)⟩,
       ⟨e0 :: rest, (e0 :: rest).map (·.1), st.hits, st.misses⟩) := by
  have hsw := asyncSweep_wf hwf t cfg.ttl
  rw [hfe] at hsw
  simp only [asyncInfo, hsw]
  rw [if_neg (by simp)]
  simp [dictGet, pyListEq_refl]

/-- C3 amended: in the suspending facade, every `cache_info` snapshot retains
exactly the live entries, reports `remainingttl = 0` when none are live, and
otherwise reports `remainingttl = ttl - (now - insertedAt)` of the oldest
live entry — the single entry that will expire soonest — which is then
strictly positive; so `remainingttl >= 0` always holds.  (In the sync facade
`remainingttl` is computed from the first key of the never-swept
`insertion_times` dict and can be negative; see the counterexample.) -/
theorem C3_amended (cfg : CacheConfig) (st : AsyncState) (τ t : ℚ)
    (h : AsyncReach cfg st τ) :
    (asyncInfo cfg st t).2.cache = st.cache.filter (aliveEntry t cfg.ttl) ∧
    0 ≤ (asyncInfo cfg st t).1.remainingttl ∧
    ((asyncInfo cfg st t).2.cache = [] →
      (asyncInfo cfg st t).1.remainingttl = 0) ∧
    (∀ e, (asyncInfo cfg st t).2.cache.head? = some e →
      (asyncInfo cfg st t).1.remainingttl = cfg.ttl - (t - e.2.2) ∧
      0 < (asyncInfo cfg st t).1.remainingttl ∧
      ∀ e2 ∈ (asyncInfo cfg st t).2.cache, e.2.2 ≤ e2.2.2) := by
  obtain ⟨hwf, hτ0⟩ := asyncReach_wf h
  cases hfe : st.cache.filter (aliveEntry t cfg.ttl) with
  | nil =>
    rw [asyncInfo_spec_nil hwf hfe]
    exact ⟨rfl, le_refl 0, fun _ => rfl, fun e he => by cases he⟩
  | cons e0 rest =>
    rw [asyncInfo_spec_cons hwf hfe]
    have hmem0 : e0 ∈ st.cache.filter (aliveEntry t cfg.ttl) := by
      rw [hfe]; exact List.mem_cons_self e0 rest
    have hlive : t - e0.2.2 < cfg.ttl := mem_filter_alive hmem0
    have hpos : 0 < cfg.ttl - (t - e0.2.2) := by linarith
    have hsorted : (e0 :: rest).Pairwise (fun e1 e2 => e1.2.2 ≤ e2.2.2) := by
      rw [← hfe]
      exact List.Pairwise.sublist (List.filter_sublist st.cache) hwf.sorted
    refine ⟨rfl, le_of_lt hpos, ?_, ?_⟩
    · intro hcon
      exact absurd hcon (List.cons_ne_nil e0 rest)
    · intro e he
      have he2 : e0 = e := by simpa using he
      subst he2
      refine ⟨rfl, hpos, ?_⟩
      intro e2 he2
      rcases List.mem_cons.1 he2 with rfl | h2
      · exact le_refl _
      · exact (List.pairwise_cons.1 hsorted).1 e2 h2

/-- C3 counterexample: in the sync facade, after caching one value at `t = 0`
with `ttl = 10`, the snapshot at `t = 20` reports a negative `remainingttl`
(the entry is long expired but `insertion_times` is never swept). -/
theorem C3_counterexample :
    (syncInfo ⟨10, none, false⟩
      (syncCall (ε := Unit) ⟨10, none, false⟩ (fun _ _ => .ok (.vint 5))
        syncClear 0 [.vint 1] []).state 20).remainingttl < 0 := by
  norm_num [syncCall, syncInfo, syncClear, lruLookup, timesSet]

/-- Witness for C3 at a concrete reachable state: one entry cached at `t = 0`,
snapshot at `t = 3` with `ttl = 10`. -/
theorem C3_amended_witness :
    0 ≤ (asyncInfo ⟨10, none, false⟩
      (asyncCall (ε := Unit) ⟨10, none, false⟩ (fun _ _ => .ok (.vint 7))
        asyncClear 0 [.vint 1] []).state 3).1.remainingttl :=
  (C3_amended ⟨10, none, false⟩ _ 0 3
    (AsyncReach.call AsyncReach.init (fun _ _ => .ok (.vint 7)) 0 [.vint 1] []
      (le_refl 0))).2.1

/-- C4 amended: in the suspending facade, `currsize` equals the number of
stored entries that are not expired at snapshot time, and a call served
without invoking the producer always serves a live (`age < ttl`) entry; in
the sync facade a hit likewise never serves an entry of age `>= ttl` (a hit
requires the current time bucket, which pins the entry's age below `ttl`),
but expired entries remain stored and counted in `currsize` until evicted by
`maxsize` or cleared — see the counterexample. -/
theorem C4_amended :
    (∀ (cfg : CacheConfig) (st : AsyncState) (τ t : ℚ), AsyncReach cfg st τ →
      (asyncInfo cfg st t).1.currsize =
        (st.cache.filter (aliveEntry t cfg.ttl)).length) ∧
    (∀ (cfg : CacheConfig) (st : AsyncState) (τ t : ℚ) (args : List PyVal)
       (kwargs : List (String × PyVal))
       (producer : List PyVal → List (String × PyVal) → Except Unit PyVal),
      AsyncReach cfg st τ →
      (asyncCall cfg producer st t args kwargs).invoked = false →
      ∃ k v te, (k, v, te) ∈ st.cache ∧ pyListEq args k = true ∧
        t - te < cfg.ttl ∧
        (asyncCall cfg producer st t args kwargs).result = .ok v) ∧
    (∀ (cfg : CacheConfig) (st : SyncState) (τ t : ℚ) (args : List PyVal)
       (kwargs : List (String × PyVal))
       (producer : List PyVal → List (String × PyVal) → Except Unit PyVal),
      SyncReach cfg st τ → 0 < cfg.ttl → τ ≤ t →
      (syncCall cfg producer st t args kwargs).invoked = false →
      ∃ e ∈ st.lru, t - e.insertedAt < cfg.ttl ∧
        (syncCall cfg producer st t args kwargs).result = .ok e.value) := by
  refine ⟨?_, ?_, ?_⟩
  · intro cfg st τ t h
    obtain ⟨hwf, _⟩ := asyncReach_wf h
    cases hfe : st.cache.filter (aliveEntry t cfg.ttl) with
    | nil => rw [asyncInfo_spec_nil hwf hfe]; rfl
    | cons e0 rest => rw [asyncInfo_spec_cons hwf hfe]
  · intro cfg st τ t args kwargs producer h hinv
    obtain ⟨hwf, _⟩ := asyncReach_wf h
    cases hget : dictGet (st.cache.filter (aliveEntry t cfg.ttl)) args with
    | none =>
      rw [asyncCall_invoked, asyncCore_miss cfg producer t args kwargs hwf hget,
        asyncMiss_invoked] at hinv
      cases hinv
    | some ent =>
      obtain ⟨kk, hmem, hkk⟩ := dictGet_some_mem _ _ _ hget
      refine ⟨kk, ent.1, ent.2, List.mem_of_mem_filter hmem, hkk,
        mem_filter_alive (e := (kk, ent)) hmem, ?_⟩
      rw [asyncCall_result, asyncCore_hit cfg producer t args kwargs hwf hget]
  · intro cfg st τ t args kwargs producer h httl ht hinv
    obtain ⟨hwf, hτ0⟩ := syncReach_wf h
    simp only [syncCall] at hinv ⊢
    cases hlk : lruLookup cfg.typed st.lru ⟨args, kwargs, truncQ (t / cfg.ttl)⟩ with
    | none =>
      rw [hlk] at hinv
      cases hprod : producer args kwargs <;> rw [hprod] at hinv <;> cases hinv
    | some e =>
      obtain ⟨hmem, hkeq⟩ := lruLookup_some_mem hlk
      obtain ⟨hins0, hinsτ, hmod⟩ := hwf.entries e hmem
      have hqmod : e.key.modificator = truncQ (t / cfg.ttl) :=
        (syncKeyEq_mod hkeq).symm
      have hsb : truncQ (e.insertedAt / cfg.ttl) = truncQ (t / cfg.ttl) := by
        rw [← hmod, hqmod]
      exact ⟨e, hmem,
        sub_lt_ttl_of_same_bucket httl hins0 (le_trans hinsτ ht) hsb, rfl⟩

/-- C4 counterexample: in the sync facade an entry cached at `t = 0` with
`ttl = 10` is expired at `t = 15` (no stored entry is live), yet
`cache_info().currsize` still counts it. -/
theorem C4_counterexample :
    (syncInfo ⟨10, none, false⟩
      (syncCall (ε := Unit) ⟨10, none, false⟩ (fun _ _ => .ok (.vint 5))
        syncClear 0 [.vint 1] []).state 15).currsize = 1 ∧
    ((syncCall (ε := Unit) ⟨10, none, false⟩ (fun _ _ => .ok (.vint 5))
        syncClear 0 [.vint 1] []).state.lru.filter
      (fun e => decide (15 - e.insertedAt < (10 : ℚ)))).length = 0 := by
  constructor
  · rfl
  · norm_num [syncCall, syncClear, lruLookup, timesSet, List.filter]

/-- Witness for C4 at concrete inputs: a snapshot on the initial async state,
an async hit one second after caching, and a sync hit one second after
caching in the same time bucket. -/
theorem C4_amended_witness :
    ((asyncInfo ⟨10, none, false⟩ asyncClear 0).1.currsize =
      (asyncClear.cache.filter (aliveEntry 0 10)).length) ∧
    (∃ k v te,
      (k, v, te) ∈ (asyncCall (ε := Unit) ⟨10, none, false⟩
          (fun _ _ => .ok (.vint 7)) asyncClear 0 [.vint 1] []).state.cache ∧
      pyListEq [.vint 1] k = true ∧ (1 : ℚ) - te < 10 ∧
      (asyncCall (ε := Unit) ⟨10, none, false⟩ (fun _ _ => .ok (.vint 9))
        (asyncCall (ε := Unit) ⟨10, none, false⟩ (fun _ _ => .ok (.vint 7))
          asyncClear 0 [.vint 1] []).state 1 [.vint 1] []).result =
        .ok v) ∧
    (∃ e ∈ (syncCall (ε := Unit) ⟨10, none, false⟩
        (fun _ _ => .ok (.vint 7)) syncClear 0 [.vint 1] []).state.lru,
      (1 : ℚ) - e.insertedAt < 10 ∧
      (syncCall (ε := Unit) ⟨10, none, false⟩ (fun _ _ => .ok (.vint 9))
        (syncCall (ε := Unit) ⟨10, none, false⟩ (fun _ _ => .ok (.vint 7))
          syncClear 0 [.vint 1] []).state 1 [.vint 1] []).result =
        .ok e.value) := by
  refine ⟨C4_amended.1 ⟨10, none, false⟩ asyncClear 0 0 AsyncReach.init,
    C4_amended.2.1 ⟨10, none, false⟩ _ 0 1 [.vint 1] []
      (fun _ _ => .ok (.vint 9))
      (AsyncReach.call AsyncReach.init (fun _ _ => .ok (.vint 7)) 0 [.vint 1]
        [] (le_refl 0)) ?_,
    C4_amended.2.2 ⟨10, none, false⟩ _ 0 1 [.vint 1] []
      (fun _ _ => .ok (.vint 9))
      (SyncReach.call SyncReach.init (fun _ _ => .ok (.vint 7)) 0 [.vint 1]
        [] (le_refl 0)) (by norm_num) (by norm_num) ?_⟩
  · norm_num [asyncCall, asyncCore, asyncSweep, expiredKeys, sweepDel,
      asyncMiss, dictGet, dictSet, maxsizeTruthy, aliveEntry, pyListEq, pyEq,
      asyncClear, List.filter]
  · have h00 : truncQ (0 : ℚ) = 0 := by norm_num [truncQ]
    have h0 : truncQ ((0 : ℚ) / 10) = 0 := by norm_num [truncQ]
    have h2 : truncQ ((1 : ℚ) / 10) = 0 := by norm_num [truncQ]
    norm_num [syncCall, h00, h0, h2, lruLookup, syncKeyEq, syncFlatKey,
      make_key, keyListEq, keyElemEq, pyEq, TIMEMOD, syncClear, keyListEq_refl]

/-- C8: a producer failure propagates to the caller unmodified and caches
nothing.  Sync facade: the lru store, `insertion_times` and the hit counter
are untouched (only `misses` increments, as `lru_cache` counts the miss
before running the function), and an identical call at any later time invokes
the producer again instead of replaying the failure.  Suspending facade: the
failing call's only state change is the expiration sweep — the stored live
entries are exactly those of the pre-state and nothing is inserted — and an
identical later call invokes the producer again. -/
theorem C8_failure_not_cached :
    (∀ (ε : Type) (cfg : CacheConfig) (st : SyncState) (τ t t2 : ℚ)
       (args : List PyVal) (kwargs : List (String × PyVal))
       (producer : List PyVal → List (String × PyVal) → Except ε PyVal) (e : ε),
      SyncReach cfg st τ → 0 < cfg.ttl → τ ≤ t → t ≤ t2 →
      producer args kwargs = .error e →
      (syncCall cfg producer st t args kwargs).invoked = true →
      (syncCall cfg producer st t args kwargs).result = .error e ∧
      (syncCall cfg producer st t args kwargs).state.lru = st.lru ∧
      (syncCall cfg producer st t args kwargs).state.insertion_times =
        st.insertion_times ∧
      (syncCall cfg producer st t args kwargs).state.hits = st.hits ∧
      (syncCall cfg producer st t args kwargs).state.misses = st.misses + 1 ∧
      ∀ (producer2 : List PyVal → List (String × PyVal) → Except ε PyVal),
        (syncCall cfg producer2
          (syncCall cfg producer st t args kwargs).state t2 args
          kwargs).invoked = true) ∧
    (∀ (ε : Type) (cfg : CacheConfig) (st : AsyncState) (τ t t2 : ℚ)
       (args : List PyVal) (kwargs kwargs2 : List (String × PyVal))
       (producer : List PyVal → List (String × PyVal) → Except ε PyVal) (e : ε),
      AsyncReach cfg st τ → τ ≤ t →
      producer args kwargs = .error e →
      (asyncCall cfg producer st t args kwargs).invoked = true →
      (asyncCall cfg producer st t args kwargs).result = .error e ∧
      (asyncCall cfg producer st t args kwargs).state.cache =
        st.cache.filter (aliveEntry t cfg.ttl) ∧
      ∀ (producer2 : List PyVal → List (String × PyVal) → Except ε PyVal),
        (asyncCall cfg producer2
          (asyncCall cfg producer st t args kwargs).state t2 args
          kwargs2).invoked = true) := by
  constructor
  · intro ε cfg st τ t t2 args kwargs producer e h httl ht ht2 hprod hinv
    obtain ⟨hwf, hτ0⟩ := syncReach_wf h
    cases hlk : lruLookup cfg.typed st.lru
        ⟨args, kwargs, truncQ (t / cfg.ttl)⟩ with
    | some e0 =>
      exfalso
      simp only [syncCall, hlk] at hinv
      cases hinv
    | none =>
      have hcall : syncCall cfg producer st t args kwargs =
          ⟨.error e, true, { st with misses := st.misses + 1 }⟩ := by
        simp only [syncCall, hlk, hprod]
      rw [hcall]
      refine ⟨rfl, rfl, rfl, rfl, rfl, ?_⟩
      intro producer2
      have hm2 : truncQ (t / cfg.ttl) ≤ truncQ (t2 / cfg.ttl) := by
        apply truncQ_mono_nonneg (div_nonneg (le_trans hτ0 ht) (le_of_lt httl))
        gcongr
      have hlk2 : lruLookup cfg.typed st.lru
          ⟨args, kwargs, truncQ (t2 / cfg.ttl)⟩ = none := by
        rw [lruLookup_none_iff]
        intro e2 he2
        cases hkeq : syncKeyEq cfg.typed
            ⟨args, kwargs, truncQ (t2 / cfg.ttl)⟩ e2.key with
        | false => rfl
        | true =>
          exfalso
          obtain ⟨hi0, hiτ, himod⟩ := hwf.entries e2 he2
          have hmod2 : truncQ (t2 / cfg.ttl) = e2.key.modificator :=
            syncKeyEq_mod hkeq
          have hle : e2.key.modificator ≤ truncQ (t / cfg.ttl) := by
            rw [himod]
            apply truncQ_mono_nonneg (div_nonneg hi0 (le_of_lt httl))
            gcongr
            exact le_trans hiτ ht
          have heq : truncQ (t2 / cfg.ttl) = truncQ (t / cfg.ttl) :=
            le_antisymm (le_trans (le_of_eq hmod2) hle) hm2
          rw [heq] at hkeq
          have hnone := (lruLookup_none_iff cfg.typed st.lru
            ⟨args, kwargs, truncQ (t / cfg.ttl)⟩).1 hlk e2 he2
          rw [hkeq] at hnone
          cases hnone
      simp only [syncCall, hlk2]
      cases producer2 args kwargs <;> rfl
  · intro ε cfg st τ t t2 args kwargs kwargs2 producer e h ht hprod hinv
    obtain ⟨hwf, hτ0⟩ := asyncReach_wf h
    cases hget : dictGet (st.cache.filter (aliveEntry t cfg.ttl)) args with
    | some ent =>
      exfalso
      rw [asyncCall_invoked,
        asyncCore_hit cfg producer t args kwargs hwf hget] at hinv
      cases hinv
    | none =>
      have hcore := asyncCore_miss cfg producer t args kwargs hwf hget
      have hmiss : asyncMiss cfg producer
          (st.cache.filter (aliveEntry t cfg.ttl))
          ((st.cache.filter (aliveEntry t cfg.ttl)).map (·.1)) t args kwargs =
          ⟨.error e, true, none, st.cache.filter (aliveEntry t cfg.ttl),
           (st.cache.filter (aliveEntry t cfg.ttl)).map (·.1)⟩ := by
        simp only [asyncMiss, hprod]
      have hst1c : (asyncCall cfg producer st t args kwargs).state.cache =
          st.cache.filter (aliveEntry t cfg.ttl) := by
        rw [asyncCall_state_cache, hcore, hmiss]
      refine ⟨?_, hst1c, ?_⟩
      · rw [asyncCall_result, hcore, hmiss]
      · intro producer2
        have hwf1 : ACoreWF (asyncCall cfg producer st t args kwargs).state.cache
            (asyncCall cfg producer st t args kwargs).state.cache_order t :=
          asyncCore_wf cfg producer t args kwargs hwf ht (le_trans hτ0 ht)
        have hget2 : dictGet
            ((asyncCall cfg producer st t args kwargs).state.cache.filter
              (aliveEntry t2 cfg.ttl)) args = none := by
          rw [hst1c]
          exact dictGet_filter_none _ _ _ hget
        rw [asyncCall_invoked,
          asyncCore_miss cfg producer2 t2 args kwargs2 hwf1 hget2,
          asyncMiss_invoked]

/-- Witness for C8 at a concrete failing producer on the initial states. -/
theorem C8_failure_not_cached_witness :
    (syncCall (ε := String) ⟨10, none, false⟩ (fun _ _ => .error "boom")
      syncClear 0 [.vint 1] []).result = .error "boom" ∧
    (asyncCall (ε := String) ⟨10, none, false⟩ (fun _ _ => .error "boom")
      asyncClear 0 [.vint 1] []).result = .error "boom" :=
  ⟨(C8_failure_not_cached.1 String ⟨10, none, false⟩ syncClear 0 0 5 [.vint 1]
      [] (fun _ _ => .error "boom") "boom" SyncReach.init (by norm_num)
      (le_refl 0) (by norm_num) rfl rfl).1,
   (C8_failure_not_cached.2 String ⟨10, none, false⟩ asyncClear 0 0 5 [.vint 1]
      [] [] (fun _ _ => .error "boom") "boom" AsyncReach.init (le_refl 0) rfl
      rfl).1⟩

/-- Two calls from the empty async state with the same positional arguments,
less than `ttl` apart: the first misses and stores, the second is served as a
hit with the first call's value — whatever the keyword arguments and whatever
the (positive) `maxsize`. -/
theorem asyncCall_empty_then_hit {ε : Type} (cfg : CacheConfig) (t1 t2 : ℚ)
    (args : List PyVal) (kw1 kw2 : List (String × PyVal)) (v : PyVal)
    (p1 p2 : List PyVal → List (String × PyVal) → Except ε PyVal)
    (hlt : t2 - t1 < cfg.ttl) (hp : p1 args kw1 = .ok v) :
    (asyncCall cfg p1 asyncClear t1 args kw1).invoked = true ∧
    (asyncCall cfg p2 (asyncCall cfg p1 asyncClear t1 args kw1).state t2 args
      kw2).invoked = false ∧
    (asyncCall cfg p2 (asyncCall cfg p1 asyncClear t1 args kw1).state t2 args
      kw2).result = .ok v := by
  have hfirst : asyncCall cfg p1 asyncClear t1 args kw1 =
      ⟨.ok v, true, none, ⟨[(args, v, t1)], [args], 0, 1⟩⟩ := by
    simp only [asyncCall, asyncCore, asyncClear, asyncSweep, expiredKeys,
      List.filter_nil, List.map_nil, List.foldl_nil, dictGet, asyncMiss, hp,
      dictSet, List.nil_append, List.length_cons, List.length_nil,
      maxsizeTruthy_one]
    simp [maxsizeTruthy_one]
  have hsweep2 : asyncSweep [(args, v, t1)] [args] t2 cfg.ttl =
      ([(args, v, t1)], [args]) := by
    apply asyncSweep_noop
    intro e he
    rw [List.mem_singleton] at he
    subst he
    simpa using hlt
  have hget2 : dictGet [(args, v, t1)] args = some (v, t1) := by
    simp [dictGet, pyListEq_refl]
  have hsecond : asyncCall cfg p2
      (asyncCall cfg p1 asyncClear t1 args kw1).state t2 args kw2 =
      ⟨.ok v, false, none, ⟨[(args, v, t1)], [args], 1, 1⟩⟩ := by
    rw [hfirst]
    simp only [asyncCall, asyncCore, hsweep2, hget2, hlt, if_pos]
    simp
  rw [hsecond, hfirst]
  exact ⟨rfl, rfl, rfl⟩

/-- A sync call whose bucketed key misses invokes the producer. -/
theorem syncCall_miss_invoked {ε : Type} (cfg : CacheConfig)
    (producer : List PyVal → List (String × PyVal) → Except ε PyVal)
    (st : SyncState) (t : ℚ) (args : List PyVal)
    (kwargs : List (String × PyVal))
    (hlk : lruLookup cfg.typed st.lru
      ⟨args, kwargs, truncQ (t / cfg.ttl)⟩ = none) :
    (syncCall cfg producer st t args kwargs).invoked = true := by
  simp only [syncCall, hlk]
  cases producer args kwargs <;> rfl

/-- C1 amended: the two facades implement different expiration policies — the
sync facade keys entries by the coarse time bucket `int(now / ttl)` while the
suspending facade expires each entry exactly `ttl` seconds after insertion.
For any two identically-timed identical call sequences whose two calls are
less than `ttl` apart but straddle a bucket boundary, the second call is a
hit in the suspending facade and a miss (producer re-invoked) in the sync
facade. -/
theorem C1_amended (ttl t1 t2 : ℚ) (ms : Option ℕ) (ty : Bool)
    (args : List PyVal) (v : PyVal)
    (p : List PyVal → List (String × PyVal) → Except Unit PyVal)
    (hlt : t2 - t1 < ttl)
    (hb : truncQ (t1 / ttl) ≠ truncQ (t2 / ttl)) (hp : p args [] = .ok v) :
    (asyncCall ⟨ttl, ms, ty⟩ p
      (asyncCall ⟨ttl, ms, ty⟩ p asyncClear t1 args []).state t2 args
      []).invoked = false ∧
    (syncCall ⟨ttl, ms, ty⟩ p
      (syncCall ⟨ttl, ms, ty⟩ p syncClear t1 args []).state t2 args
      []).invoked = true := by
  constructor
  · exact (asyncCall_empty_then_hit ⟨ttl, ms, ty⟩ t1 t2 args [] [] v p p hlt
      hp).2.1
  · have hsub : ∀ e ∈ (syncCall (ε := Unit) ⟨ttl, ms, ty⟩ p syncClear t1 args
        []).state.lru,
        e = SyncEntry.mk ⟨args, [], truncQ (t1 / ttl)⟩ v t1 := by
      intro e he
      simp only [syncCall, syncClear, lruLookup, hp] at he
      cases ms with
      | none => simpa using he
      | some n =>
        have := List.take_subset n _ he
        simpa using this
    have hlk2 : lruLookup ty
        (syncCall (ε := Unit) ⟨ttl, ms, ty⟩ p syncClear t1 args
          []).state.lru ⟨args, [], truncQ (t2 / ttl)⟩ = none := by
      rw [lruLookup_none_iff]
      intro e he
      rw [hsub e he]
      cases hkeq : syncKeyEq ty ⟨args, [], truncQ (t2 / ttl)⟩
          ⟨args, [], truncQ (t1 / ttl)⟩ with
      | false => rfl
      | true =>
        exfalso
        exact hb (syncKeyEq_mod hkeq).symm
    exact syncCall_miss_invoked ⟨ttl, ms, ty⟩ p _ t2 args [] hlk2

/-- C1 counterexample: with `ttl = 10`, identical calls at `t = 9` and
`t = 11` (2 s apart): the second call is a hit in `async_cachettl` but a miss
in `cachettl` (the bucket `int(t/10)` changed from 0 to 1), so the two
facades do not implement one and the same expiration policy. -/
theorem C1_counterexample :
    (asyncCall (ε := Unit) ⟨10, none, false⟩ (fun _ _ => .ok (.vint 7))
        (asyncCall (ε := Unit) ⟨10, none, false⟩ (fun _ _ => .ok (.vint 7))
          asyncClear 9 [.vint 0] []).state 11 [.vint 0] []).invoked = false ∧
    (syncCall (ε := Unit) ⟨10, none, false⟩ (fun _ _ => .ok (.vint 7))
        (syncCall (ε := Unit) ⟨10, none, false⟩ (fun _ _ => .ok (.vint 7))
          syncClear 9 [.vint 0] []).state 11 [.vint 0] []).invoked = true := by
  constructor
  · norm_num [asyncCall, asyncCore, asyncSweep, expiredKeys, sweepDel,
      asyncMiss, dictGet, dictSet, maxsizeTruthy, aliveEntry, pyListEq, pyEq,
      asyncClear, List.filter]
  · have h1 : truncQ ((9 : ℚ) / 10) = 0 := by norm_num [truncQ]
    have h2 : truncQ ((11 : ℚ) / 10) = 1 := by norm_num [truncQ]
    norm_num [syncCall, h1, h2, lruLookup, syncKeyEq, syncFlatKey, make_key,
      keyListEq, keyElemEq, pyEq, TIMEMOD, syncClear]

/-- Witness for C1 at `ttl = 10`, calls at `t = 9` and `t = 11`. -/
theorem C1_amended_witness :
    (asyncCall (ε := Unit) ⟨10, none, false⟩ (fun _ _ => .ok (.vint 5))
      (asyncCall (ε := Unit) ⟨10, none, false⟩ (fun _ _ => .ok (.vint 5))
        asyncClear 9 [.vint 2] []).state 11 [.vint 2] []).invoked = false ∧
    (syncCall (ε := Unit) ⟨10, none, false⟩ (fun _ _ => .ok (.vint 5))
      (syncCall (ε := Unit) ⟨10, none, false⟩ (fun _ _ => .ok (.vint 5))
        syncClear 9 [.vint 2] []).state 11 [.vint 2] []).invoked = true :=
  C1_amended 10 9 11 none false [.vint 2] (.vint 5) (fun _ _ => .ok (.vint 5))
    (by norm_num) (by norm_num [truncQ]) rfl

/-- C6 counterexample: in the suspending facade the cache key is the
positional argument tuple only.  Two calls with equal positional arguments
but different keyword argument values (`k=2` vs `k=3`) share one cache entry:
the second call is served the first call's result without running the
producer, refuting "two calls produce equal keys iff their positional and
keyword argument values are equal". -/
theorem C6_counterexample :
    (asyncCall (ε := Unit) ⟨10, none, false⟩ (fun _ _ => .ok (.vint 200))
        (asyncCall (ε := Unit) ⟨10, none, false⟩ (fun _ _ => .ok (.vint 100))
          asyncClear 0 [.vint 1] [("k", .vint 2)]).state 1 [.vint 1]
        [("k", .vint 3)]).invoked = false ∧
    (asyncCall (ε := Unit) ⟨10, none, false⟩ (fun _ _ => .ok (.vint 200))
        (asyncCall (ε := Unit) ⟨10, none, false⟩ (fun _ _ => .ok (.vint 100))
          asyncClear 0 [.vint 1] [("k", .vint 2)]).state 1 [.vint 1]
        [("k", .vint 3)]).result = .ok (.vint 100) := by
  constructor <;>
    norm_num [asyncCall, asyncCore, asyncSweep, expiredKeys, sweepDel,
      asyncMiss, dictGet, dictSet, maxsizeTruthy, aliveEntry, pyListEq, pyEq,
      asyncClear, List.filter]

/-- C6 amended: in the sync facade the key is derived from the positional
arguments (in order) and the keyword arguments in the order they were
written — swapping two keyword items yields a different key — plus the hidden
time bucket; in the suspending facade the key is the positional argument
tuple only, so keyword arguments never influence whether a call hits. -/
theorem C6_amended :
    (∀ (ttl t1 t2 : ℚ) (ms : Option ℕ) (ty : Bool) (args : List PyVal)
       (kw1 kw2 : List (String × PyVal)) (v : PyVal)
       (p1 p2 : List PyVal → List (String × PyVal) → Except Unit PyVal),
      t2 - t1 < ttl → p1 args kw1 = .ok v →
      (asyncCall ⟨ttl, ms, ty⟩ p2
        (asyncCall ⟨ttl, ms, ty⟩ p1 asyncClear t1 args kw1).state t2 args
        kw2).invoked = false ∧
      (asyncCall ⟨ttl, ms, ty⟩ p2
        (asyncCall ⟨ttl, ms, ty⟩ p1 asyncClear t1 args kw1).state t2 args
        kw2).result = .ok v) ∧
    (∀ (a b : PyVal) (m : ℤ) (ty : Bool),
      syncKeyEq ty ⟨[], [("x", a), ("y", b)], m⟩
        ⟨[], [("y", b), ("x", a)], m⟩ = false) := by
  constructor
  · intro ttl t1 t2 ms ty args kw1 kw2 v p1 p2 hlt hp
    obtain ⟨_, h2, h3⟩ := asyncCall_empty_then_hit ⟨ttl, ms, ty⟩ t1 t2 args
      kw1 kw2 v p1 p2 hlt hp
    exact ⟨h2, h3⟩
  · intro a b m ty
    cases hkeq : syncKeyEq ty ⟨[], [("x", a), ("y", b)], m⟩
        ⟨[], [("y", b), ("x", a)], m⟩ with
    | false => rfl
    | true =>
      exfalso
      have hp := (syncKeyEq_parts hkeq).2
      simp only [kwIElems, List.foldr_cons, List.foldr_nil, List.cons_append,
        List.cons.injEq, KeyElemI.nm.injEq] at hp
      exact absurd hp.1 (by decide)

/-- Witness for C6 at concrete inputs: same positional argument, different
keyword values, still a hit in the suspending facade; and concrete swapped
keyword items give unequal sync keys. -/
theorem C6_amended_witness :
    ((asyncCall (ε := Unit) ⟨10, none, false⟩ (fun _ _ => .ok (.vint 9))
        (asyncCall (ε := Unit) ⟨10, none, false⟩ (fun _ _ => .ok (.vint 4))
          asyncClear 2 [.vint 8] [("k", .vint 2)]).state 3 [.vint 8]
        [("j", .vstr "z")]).invoked = false ∧
     (asyncCall (ε := Unit) ⟨10, none, false⟩ (fun _ _ => .ok (.vint 9))
        (asyncCall (ε := Unit) ⟨10, none, false⟩ (fun _ _ => .ok (.vint 4))
          asyncClear 2 [.vint 8] [("k", .vint 2)]).state 3 [.vint 8]
        [("j", .vstr "z")]).result = .ok (.vint 4)) ∧
    syncKeyEq true ⟨[], [("x", .vint 1), ("y", .vint 2)], 0⟩
      ⟨[], [("y", .vint 2), ("x", .vint 1)], 0⟩ = false :=
  ⟨C6_amended.1 10 2 3 none false [.vint 8] [("k", .vint 2)]
      [("j", .vstr "z")] (.vint 4) (fun _ _ => .ok (.vint 4))
      (fun _ _ => .ok (.vint 9)) (by norm_num) rfl,
   C6_amended.2 (.vint 1) (.vint 2) 0 true⟩

/-! ## Traces of intervening operations on an async cache -/

/-- One intervening operation: a call or a `cache_info` snapshot
(`cache_clear` would discard every entry and is excluded by the claim's
premise that nothing removes the entry in between). -/
inductive AOp where
  | call (t : ℚ) (args : List PyVal) (kwargs : List (String × PyVal))
      (producer : List PyVal → List (String × PyVal) → Except Unit PyVal)
  | info (t : ℚ)

def aTime : AOp → ℚ
  | .call t _ _ _ => t
  | .info t => t

def aStep (cfg : CacheConfig) (st : AsyncState) : AOp → AsyncState
  | .call t args kwargs producer =>
    (asyncCall cfg producer st t args kwargs).state
  | .info t => (asyncInfo cfg st t).2

def aEvicted (cfg : CacheConfig) (st : AsyncState) : AOp → Option (List PyVal)
  | .call t args kwargs producer =>
    (asyncCall cfg producer st t args kwargs).evicted
  | .info _ => none

def aRun (cfg : CacheConfig) : AsyncState → List AOp → AsyncState
  | st, [] => st
  | st, op :: rest => aRun cfg (aStep cfg st op) rest

/-- Admissibility of an intervening op sequence for key `a`: timestamps stay
within `[lo, hi]` and never decrease, and no capacity eviction removes a key
`==`-equal to `a`. -/
def OpsOK (cfg : CacheConfig) (a : List PyVal) :
    AsyncState → ℚ → ℚ → List AOp → Prop
  | _, _, _, [] => True
  | st, lo, hi, op :: rest =>
      lo ≤ aTime op ∧ aTime op ≤ hi ∧
      (∀ k, aEvicted cfg st op = some k → pyListEq k a = false) ∧
      OpsOK cfg a (aStep cfg st op) (aTime op) hi rest

/-- Number of producer invocations made for argument tuples `==`-equal to `a`
along an op sequence. -/
def aCountA (cfg : CacheConfig) (a : List PyVal) : AsyncState → List AOp → ℕ
  | _, [] => 0
  | st, op :: rest =>
      (match op with
       | .call t args kwargs producer =>
         if pyListEq args a = true ∧
             (asyncCall cfg producer st t args kwargs).invoked = true then 1
         else 0
       | .info _ => 0) + aCountA cfg a (aStep cfg st op) rest

theorem aCountA_append (cfg : CacheConfig) (a : List PyVal) :
    ∀ (l1 l2 : List AOp) (st : AsyncState),
    aCountA cfg a st (l1 ++ l2) =
      aCountA cfg a st l1 + aCountA cfg a (aRun cfg st l1) l2 := by
  intro l1
  induction l1 with
  | nil => intro l2 st; simp [aCountA, aRun]
  | cons op rest ih =>
    intro l2 st
    simp only [List.cons_append, aCountA, aRun, List.append_eq]
    rw [ih l2 (aStep cfg st op)]
    omega

theorem aStep_wf (cfg : CacheConfig) {st : AsyncState} {τ : ℚ}
    (hwf : ACoreWF st.cache st.cache_order τ) (op : AOp)
    (ht : τ ≤ aTime op) (h0 : 0 ≤ aTime op) :
    ACoreWF (aStep cfg st op).cache (aStep cfg st op).cache_order
      (aTime op) := by
  cases op with
  | call t args kwargs producer =>
    exact asyncCore_wf cfg producer t args kwargs hwf ht h0
  | info t =>
    show ACoreWF (asyncInfo cfg st t).2.cache (asyncInfo cfg st t).2.cache_order t
    rw [asyncInfo_state_cache, asyncInfo_state_order, asyncSweep_wf hwf]
    exact ((hwf.filterAlive t cfg.ttl).mono ht)

/-- The miss path keeps every stored entry that is not the evicted one. -/
theorem asyncMiss_entry_mem {ε : Type} (cfg : CacheConfig)
    (producer : List PyVal → List (String × PyVal) → Except ε PyVal)
    {c : List AEntry} {ord : List (List PyVal)} (t : ℚ) (args : List PyVal)
    (kwargs : List (String × PyVal)) {a : List PyVal} {v : PyVal} {te : ℚ}
    (hget : dictGet c args = none) (hcorr : c.map (·.1) = ord)
    (hmem : (a, v, te) ∈ c)
    (hnoev : ∀ k, (asyncMiss cfg producer c ord t args kwargs).evicted =
      some k → pyListEq k a = false) :
    (a, v, te) ∈ (asyncMiss cfg producer c ord t args kwargs).cache := by
  cases hprod : producer args kwargs with
  | error e =>
    simp only [asyncMiss, hprod]
    exact hmem
  | ok v2 =>
    simp only [asyncMiss, hprod] at hnoev ⊢
    rw [dictSet_eq_append c args (v2, t) hget] at hnoev ⊢
    by_cases htr : maxsizeTruthy cfg.maxsize (ord ++ [args]).length = true
    · rw [if_pos htr] at hnoev ⊢
      cases hc : c with
      | nil =>
        exfalso
        rw [hc] at hcorr
        rw [← hcorr] at htr
        simp only [List.map_nil, List.nil_append, List.length_cons,
          List.length_nil] at htr
        rw [maxsizeTruthy_one] at htr
        cases htr
      | cons e0 crest =>
        rw [hc] at hcorr hmem
        have hord : ord ++ [args] = e0.1 :: (crest.map (·.1) ++ [args]) := by
          rw [← hcorr]
          simp
        rw [hord] at hnoev ⊢
        dsimp only at hnoev ⊢
        have hne : pyListEq e0.1 a = false := hnoev e0.1 rfl
        rw [show dictDel (e0 :: crest ++ [(args, v2, t)]) e0.1 =
            crest ++ [(args, v2, t)] from by simp [dictDel, pyListEq_refl]]
        rcases List.mem_cons.1 hmem with he0 | hcr
        · exfalso
          rw [← he0] at hne
          rw [pyListEq_refl] at hne
          cases hne
        · exact List.mem_append_left _ hcr
    · rw [if_neg htr]
      exact List.mem_append_left _ hmem

/-- One admissible intervening operation keeps a live entry in the cache. -/
theorem aStep_entry_mem (cfg : CacheConfig) {st : AsyncState} {τ : ℚ}
    (hwf : ACoreWF st.cache st.cache_order τ) (op : AOp)
    {a : List PyVal} {v : PyVal} {te : ℚ}
    (hmem : (a, v, te) ∈ st.cache) (hlive : aTime op - te < cfg.ttl)
    (hnoev : ∀ k, aEvicted cfg st op = some k → pyListEq k a = false) :
    (a, v, te) ∈ (aStep cfg st op).cache := by
  have hmemf : (a, v, te) ∈ st.cache.filter (aliveEntry (aTime op) cfg.ttl) :=
    List.mem_filter.2 ⟨hmem, by simpa [aliveEntry] using hlive⟩
  cases op with
  | info t =>
    show (a, v, te) ∈ (asyncInfo cfg st t).2.cache
    rw [asyncInfo_state_cache, asyncSweep_wf hwf]
    exact hmemf
  | call t args kwargs producer =>
    show (a, v, te) ∈ (asyncCall cfg producer st t args kwargs).state.cache
    rw [asyncCall_state_cache]
    cases hget : dictGet (st.cache.filter (aliveEntry t cfg.ttl)) args with
    | some ent =>
      rw [asyncCore_hit cfg producer t args kwargs hwf hget]
      exact hmemf
    | none =>
      rw [asyncCore_miss cfg producer t args kwargs hwf hget]
      refine asyncMiss_entry_mem cfg producer t args kwargs hget rfl hmemf ?_
      intro k hk
      apply hnoev
      show (asyncCall cfg producer st t args kwargs).evicted = some k
      rw [asyncCall_evicted, asyncCore_miss cfg producer t args kwargs hwf hget]
      exact hk

/-- A call whose arguments are `==`-equal to a live entry's key is a hit. -/
theorem asyncCall_matching_hit (cfg : CacheConfig) {st : AsyncState} {τ : ℚ}
    (hwf : ACoreWF st.cache st.cache_order τ) (t : ℚ) (args : List PyVal)
    (kwargs : List (String × PyVal))
    (producer : List PyVal → List (String × PyVal) → Except Unit PyVal)
    {a : List PyVal} {v : PyVal} {te : ℚ}
    (hmem : (a, v, te) ∈ st.cache) (hlive : t - te < cfg.ttl)
    (hargs : pyListEq args a = true) :
    (asyncCall cfg producer st t args kwargs).invoked = false ∧
    (asyncCall cfg producer st t args kwargs).result = .ok v := by
  have hmemf : (a, v, te) ∈ st.cache.filter (aliveEntry t cfg.ttl) :=
    List.mem_filter.2 ⟨hmem, by simpa [aliveEntry] using hlive⟩
  have hget : dictGet (st.cache.filter (aliveEntry t cfg.ttl)) args =
      some (v, te) :=
    dictGet_eq_of_mem _ args a (v, te)
      (List.Pairwise.sublist (List.filter_sublist st.cache) hwf.distinct)
      hmemf hargs
  constructor
  · rw [asyncCall_invoked, asyncCore_hit cfg producer t args kwargs hwf hget]
  · rw [asyncCall_result, asyncCore_hit cfg producer t args kwargs hwf hget]

/-- Running admissible intervening operations preserves a live entry, keeps
the state well formed, and invokes the producer zero times for `a`. -/
theorem aRun_entry_preserved (cfg : CacheConfig) (a : List PyVal) (v : PyVal)
    (te thi : ℚ) (hthi : thi - te < cfg.ttl) :
    ∀ (ops : List AOp) (st : AsyncState) (τ : ℚ),
    ACoreWF st.cache st.cache_order τ → 0 ≤ τ → τ ≤ thi →
    (a, v, te) ∈ st.cache →
    OpsOK cfg a st τ thi ops →
    (a, v, te) ∈ (aRun cfg st ops).cache ∧
    (∃ τ2, ACoreWF (aRun cfg st ops).cache (aRun cfg st ops).cache_order τ2 ∧
      0 ≤ τ2 ∧ τ2 ≤ thi) ∧
    aCountA cfg a st ops = 0 := by
  intro ops
  induction ops with
  | nil =>
    intro st τ hwf h0 hτhi hmem _
    exact ⟨hmem, ⟨τ, hwf, h0, hτhi⟩, rfl⟩
  | cons op rest ih =>
    intro st τ hwf h0 hτhi hmem hok
    obtain ⟨hlo, hhi, hnoev, hrest⟩ := hok
    have h0t : 0 ≤ aTime op := le_trans h0 hlo
    have hwf2 := aStep_wf cfg hwf op hlo h0t
    have hlive : aTime op - te < cfg.ttl := by linarith
    have hmem2 : (a, v, te) ∈ (aStep cfg st op).cache :=
      aStep_entry_mem cfg hwf op hmem hlive hnoev
    obtain ⟨hm3, hwf3, hcnt⟩ :=
      ih (aStep cfg st op) (aTime op) hwf2 h0t hhi hmem2 hrest
    refine ⟨hm3, hwf3, ?_⟩
    show aCountA cfg a st (op :: rest) = 0
    simp only [aCountA, hcnt]
    cases op with
    | info t => rfl
    | call t args kwargs producer =>
      by_cases hargs : pyListEq args a = true
      · have hhit := (asyncCall_matching_hit cfg hwf t args kwargs producer
          hmem hlive hargs).1
        simp [hhit]
      · simp [hargs]

/-- A sync call whose bucketed key finds an entry is served that entry
without invoking the producer. -/
theorem syncCall_hit_spec {ε : Type} (cfg : CacheConfig)
    (producer : List PyVal → List (String × PyVal) → Except ε PyVal)
    (st : SyncState) (t : ℚ) (args : List PyVal)
    (kwargs : List (String × PyVal)) {e : SyncEntry}
    (hlk : lruLookup cfg.typed st.lru
      ⟨args, kwargs, truncQ (t / cfg.ttl)⟩ = some e) :
    (syncCall cfg producer st t args kwargs).invoked = false ∧
    (syncCall cfg producer st t args kwargs).result = .ok e.value := by
  constructor <;> simp [syncCall, hlk]

/-- C2 amended: hit determinism holds in the suspending facade — from any
reachable state, a miss for `a` followed by any admissible intervening
operations (timestamps nondecreasing, no capacity eviction of `a`, no clear)
and a second call with `a` less than `ttl` after the first invokes the
producer exactly once for `a`, and the second call returns the first call's
cached result.  In the sync facade it holds only when the two calls fall in
the same `int(t / ttl)` bucket (shown here for consecutive calls); two calls
less than `ttl` apart in different buckets re-invoke the producer, see the
counterexample. -/
theorem C2_amended :
    (∀ (cfg : CacheConfig) (st : AsyncState) (τ t1 t2 : ℚ) (a : List PyVal)
       (kw1 kw2 : List (String × PyVal)) (v : PyVal)
       (p1 p2 : List PyVal → List (String × PyVal) → Except Unit PyVal)
       (ops : List AOp),
      AsyncReach cfg st τ → τ ≤ t1 → t1 ≤ t2 → t2 - t1 < cfg.ttl →
      asyncIsHit cfg st t1 a = false → p1 a kw1 = .ok v →
      OpsOK cfg a (asyncCall cfg p1 st t1 a kw1).state t1 t2 ops →
      aCountA cfg a st
        (AOp.call t1 a kw1 p1 :: (ops ++ [AOp.call t2 a kw2 p2])) = 1 ∧
      (asyncCall cfg p2 (aRun cfg (asyncCall cfg p1 st t1 a kw1).state ops)
        t2 a kw2).result = .ok v) ∧
    (∀ (cfg : CacheConfig) (st : SyncState) (τ t1 t2 : ℚ) (args : List PyVal)
       (kwargs : List (String × PyVal)) (v : PyVal)
       (p1 p2 : List PyVal → List (String × PyVal) → Except Unit PyVal),
      SyncReach cfg st τ → cfg.maxsize ≠ some 0 →
      truncQ (t1 / cfg.ttl) = truncQ (t2 / cfg.ttl) →
      (syncCall cfg p1 st t1 args kwargs).invoked = true →
      p1 args kwargs = .ok v →
      (syncCall cfg p2 (syncCall cfg p1 st t1 args kwargs).state t2 args
        kwargs).invoked = false ∧
      (syncCall cfg p2 (syncCall cfg p1 st t1 args kwargs).state t2 args
        kwargs).result = .ok v) := by
  constructor
  · intro cfg st τ t1 t2 a kw1 kw2 v p1 p2 ops h ht1 h12 hlt hnohit hp hok
    obtain ⟨hwf, hτ0⟩ := asyncReach_wf h
    have h0t1 : 0 ≤ t1 := le_trans hτ0 ht1
    have hget1 : dictGet (st.cache.filter (aliveEntry t1 cfg.ttl)) a = none := by
      cases hg : dictGet (st.cache.filter (aliveEntry t1 cfg.ttl)) a with
      | none => rfl
      | some ent =>
        exfalso
        rw [asyncIsHit_of_filter_some hwf.distinct hg] at hnohit
        cases hnohit
    have hinv1 : (asyncCall cfg p1 st t1 a kw1).invoked = true := by
      rw [asyncCall_invoked, asyncCore_miss cfg p1 t1 a kw1 hwf hget1,
        asyncMiss_invoked]
    have hwf1 : ACoreWF (asyncCall cfg p1 st t1 a kw1).state.cache
        (asyncCall cfg p1 st t1 a kw1).state.cache_order t1 :=
      asyncCore_wf cfg p1 t1 a kw1 hwf ht1 h0t1
    have hmem1 : (a, v, t1) ∈ (asyncCall cfg p1 st t1 a kw1).state.cache := by
      rw [asyncCall_state_cache, asyncCore_miss cfg p1 t1 a kw1 hwf hget1]
      exact asyncMiss_self_mem cfg p1 t1 a kw1 hget1 rfl hp
    obtain ⟨hm3, ⟨τ2, hwf3, h0τ2, hτ2⟩, hcnt⟩ :=
      aRun_entry_preserved cfg a v t1 t2 hlt ops
        (asyncCall cfg p1 st t1 a kw1).state t1 hwf1 h0t1 h12 hmem1 hok
    have hfinal := asyncCall_matching_hit cfg hwf3 t2 a kw2 p2 hm3 hlt
      (pyListEq_refl a)
    refine ⟨?_, hfinal.2⟩
    show aCountA cfg a st (AOp.call t1 a kw1 p1 ::
      (ops ++ [AOp.call t2 a kw2 p2])) = 1
    simp only [aCountA]
    rw [show aStep cfg st (AOp.call t1 a kw1 p1) =
      (asyncCall cfg p1 st t1 a kw1).state from rfl]
    rw [aCountA_append cfg a ops [AOp.call t2 a kw2 p2]
      (asyncCall cfg p1 st t1 a kw1).state]
    rw [hcnt]
    simp only [aCountA, aStep]
    rw [hfinal.1]
    simp [pyListEq_refl, hinv1]
  · intro cfg st τ t1 t2 args kwargs v p1 p2 h hms hb hinv1 hp
    have hlk1 : lruLookup cfg.typed st.lru
        ⟨args, kwargs, truncQ (t1 / cfg.ttl)⟩ = none := by
      cases hlk : lruLookup cfg.typed st.lru
          ⟨args, kwargs, truncQ (t1 / cfg.ttl)⟩ with
      | none => rfl
      | some e =>
        exfalso
        simp only [syncCall, hlk] at hinv1
        cases hinv1
    have hcall1 : syncCall cfg p1 st t1 args kwargs =
        ⟨.ok v, true,
         { lru := match cfg.maxsize with
             | some n => (SyncEntry.mk
                 ⟨args, kwargs, truncQ (t1 / cfg.ttl)⟩ v t1 :: st.lru).take n
             | none => SyncEntry.mk
                 ⟨args, kwargs, truncQ (t1 / cfg.ttl)⟩ v t1 :: st.lru,
           hits := st.hits, misses := st.misses + 1,
           insertion_times := timesSet st.insertion_times args t1 }⟩ := by
      simp only [syncCall, hlk1, hp]
    obtain ⟨tl, htl⟩ : ∃ tl,
        (syncCall cfg p1 st t1 args kwargs).state.lru =
          SyncEntry.mk ⟨args, kwargs, truncQ (t1 / cfg.ttl)⟩ v t1 :: tl := by
      rw [hcall1]
      cases hmsv : cfg.maxsize with
      | none => exact ⟨st.lru, rfl⟩
      | some n =>
        cases n with
        | zero => exact absurd hmsv hms
        | succ m =>
          exact ⟨st.lru.take m, by simp [List.take_succ_cons]⟩
    have hlk2 : lruLookup cfg.typed
        (syncCall cfg p1 st t1 args kwargs).state.lru
        ⟨args, kwargs, truncQ (t2 / cfg.ttl)⟩ =
        some (SyncEntry.mk ⟨args, kwargs, truncQ (t1 / cfg.ttl)⟩ v t1) := by
      rw [htl, ← hb, lruLookup]
      rw [if_pos]
      exact keyListEq_refl _
    exact syncCall_hit_spec cfg p2 (syncCall cfg p1 st t1 args kwargs).state
      t2 args kwargs hlk2

/-- C2 counterexample: in the sync facade two identical calls 2 s apart with
`ttl = 10` (at `t = 9` and `t = 11`, straddling a bucket boundary) each
invoke the producer — the producer is not invoked exactly once, refuting the
claim for the sync facade. -/
theorem C2_counterexample :
    (syncCall (ε := Unit) ⟨10, none, false⟩ (fun _ _ => .ok (.vint 7))
        syncClear 9 [.vint 1] []).invoked = true ∧
    (syncCall (ε := Unit) ⟨10, none, false⟩ (fun _ _ => .ok (.vint 7))
        (syncCall (ε := Unit) ⟨10, none, false⟩ (fun _ _ => .ok (.vint 7))
          syncClear 9 [.vint 1] []).state 11 [.vint 1] []).invoked = true := by
  have h1 : truncQ ((9 : ℚ) / 10) = 0 := by norm_num [truncQ]
  have h2 : truncQ ((11 : ℚ) / 10) = 1 := by norm_num [truncQ]
  constructor <;>
    norm_num [syncCall, h1, h2, lruLookup, syncKeyEq, syncFlatKey, make_key,
      keyListEq, keyElemEq, pyEq, TIMEMOD, syncClear]

/-- Witness for C2: both facades at concrete inputs, with no intervening
operations, calls at `t = 0` and `t = 1` with `ttl = 10`. -/
theorem C2_amended_witness :
    (aCountA ⟨10, none, false⟩ [.vint 1] asyncClear
      (AOp.call 0 [.vint 1] [] (fun _ _ => .ok (.vint 7)) ::
        ([] ++ [AOp.call 1 [.vint 1] [] (fun _ _ => .ok (.vint 8))])) = 1 ∧
     (asyncCall (ε := Unit) ⟨10, none, false⟩ (fun _ _ => .ok (.vint 8))
       (aRun ⟨10, none, false⟩
         (asyncCall (ε := Unit) ⟨10, none, false⟩ (fun _ _ => .ok (.vint 7))
           asyncClear 0 [.vint 1] []).state []) 1 [.vint 1] []).result =
       .ok (.vint 7)) ∧
    ((syncCall (ε := Unit) ⟨10, none, false⟩ (fun _ _ => .ok (.vint 8))
       (syncCall (ε := Unit) ⟨10, none, false⟩ (fun _ _ => .ok (.vint 7))
         syncClear 0 [.vint 1] []).state 1 [.vint 1] []).invoked = false ∧
     (syncCall (ε := Unit) ⟨10, none, false⟩ (fun _ _ => .ok (.vint 8))
       (syncCall (ε := Unit) ⟨10, none, false⟩ (fun _ _ => .ok (.vint 7))
         syncClear 0 [.vint 1] []).state 1 [.vint 1] []).result =
       .ok (.vint 7)) :=
  ⟨C2_amended.1 ⟨10, none, false⟩ asyncClear 0 0 1 [.vint 1] [] []
      (.vint 7) (fun _ _ => .ok (.vint 7)) (fun _ _ => .ok (.vint 8)) []
      AsyncReach.init (le_refl 0) (by norm_num) (by norm_num) rfl rfl
      trivial,
   C2_amended.2 ⟨10, none, false⟩ syncClear 0 0 1 [.vint 1] [] (.vint 7)
      (fun _ _ => .ok (.vint 7)) (fun _ _ => .ok (.vint 8)) SyncReach.init
      (by simp) (by norm_num [truncQ]) rfl rfl⟩

/-- C7 counterexample: sync facade, `ttl = 10`, `maxsize = 2`; three distinct
keys inserted at `t = 8, 9, 11` (all within 3 s, so within `ttl`).  Afterwards
`currsize = 2`, but two previously-cached keys are no longer retrievable as
hits (the first was evicted by capacity, the second's time bucket changed), so
"exactly one previously-cached key is no longer retrievable" fails for the
sync facade. -/
theorem C7_counterexample :
    (syncIsHit ⟨10, some 2, false⟩
      (syncCall (ε := Unit) ⟨10, some 2, false⟩ (fun _ _ => .ok (.vint 30))
        (syncCall (ε := Unit) ⟨10, some 2, false⟩ (fun _ _ => .ok (.vint 20))
          (syncCall (ε := Unit) ⟨10, some 2, false⟩ (fun _ _ => .ok (.vint 10))
            syncClear 8 [.vint 1] []).state 9 [.vint 2] []).state
        11 [.vint 3] []).state 11 [.vint 1] []) = false ∧
    (syncIsHit ⟨10, some 2, false⟩
      (syncCall (ε := Unit) ⟨10, some 2, false⟩ (fun _ _ => .ok (.vint 30))
        (syncCall (ε := Unit) ⟨10, some 2, false⟩ (fun _ _ => .ok (.vint 20))
          (syncCall (ε := Unit) ⟨10, some 2, false⟩ (fun _ _ => .ok (.vint 10))
            syncClear 8 [.vint 1] []).state 9 [.vint 2] []).state
        11 [.vint 3] []).state 11 [.vint 2] []) = false ∧
    (syncIsHit ⟨10, some 2, false⟩
      (syncCall (ε := Unit) ⟨10, some 2, false⟩ (fun _ _ => .ok (.vint 30))
        (syncCall (ε := Unit) ⟨10, some 2, false⟩ (fun _ _ => .ok (.vint 20))
          (syncCall (ε := Unit) ⟨10, some 2, false⟩ (fun _ _ => .ok (.vint 10))
            syncClear 8 [.vint 1] []).state 9 [.vint 2] []).state
        11 [.vint 3] []).state 11 [.vint 3] []) = true ∧
    (syncInfo ⟨10, some 2, false⟩
      (syncCall (ε := Unit) ⟨10, some 2, false⟩ (fun _ _ => .ok (.vint 30))
        (syncCall (ε := Unit) ⟨10, some 2, false⟩ (fun _ _ => .ok (.vint 20))
          (syncCall (ε := Unit) ⟨10, some 2, false⟩ (fun _ _ => .ok (.vint 10))
            syncClear 8 [.vint 1] []).state 9 [.vint 2] []).state
        11 [.vint 3] []).state 11).currsize = 2 := by
  have h8 : truncQ ((8 : ℚ) / 10) = 0 := by norm_num [truncQ]
  have h9 : truncQ ((9 : ℚ) / 10) = 0 := by norm_num [truncQ]
  have h11 : truncQ ((11 : ℚ) / 10) = 1 := by norm_num [truncQ]
  refine ⟨?_, ?_, ?_, ?_⟩ <;>
    norm_num [syncCall, syncIsHit, syncInfo, h8, h9, h11, lruLookup,
      lruMoveToFront, lruRemove, syncKeyEq, syncFlatKey, make_key, keyListEq,
      keyElemEq, pyEq, TIMEMOD, syncClear, timesSet, pyListEq]

/-! ## C7: the capacity bound -/

theorem pyListEq_false_symm {la lb : List PyVal} (h : pyListEq la lb = false) :
    pyListEq lb la = false := by
  cases hba : pyListEq lb la with
  | false => rfl
  | true => rw [pyListEq_symm hba] at h; cases h

/-- The miss path never lets `cache_order` exceed a nonzero `maxsize`. -/
theorem asyncMiss_order_length {ε : Type} (cfg : CacheConfig)
    (producer : List PyVal → List (String × PyVal) → Except ε PyVal)
    (c : List AEntry) (ord : List (List PyVal)) (t : ℚ) (args : List PyVal)
    (kwargs : List (String × PyVal)) {n : ℕ} (hms : cfg.maxsize = some n)
    (hn : n ≠ 0) (hlen : ord.length ≤ n) :
    (asyncMiss cfg producer c ord t args kwargs).cache_order.length ≤ n := by
  rw [asyncMiss]
  cases producer args kwargs with
  | error e => exact hlen
  | ok v =>
    dsimp only
    cases htr : maxsizeTruthy cfg.maxsize (ord ++ [args]).length with
    | false =>
      simp only [htr, Bool.false_eq_true, if_false, List.length_append,
        List.length_cons, List.length_nil]
      have h2 : ¬(n ≠ 0 ∧ n < (ord ++ [args]).length) := by
        rw [← maxsizeTruthy_some, ← hms, htr]
        simp
      simp only [List.length_append, List.length_cons, List.length_nil] at h2
      omega
    | true =>
      simp only [htr, if_true]
      cases hord : ord ++ [args] with
      | nil => cases ord <;> cases hord
      | cons oldest rest =>
        dsimp only
        have h1 : ord.length + 1 = rest.length + 1 := by
          have := congrArg List.length hord
          simpa using this
        omega

/-- The core call never lets `cache_order` exceed a nonzero `maxsize`. -/
theorem asyncCore_size {ε : Type} (cfg : CacheConfig)
    (producer : List PyVal → List (String × PyVal) → Except ε PyVal)
    {c : List AEntry} {ord : List (List PyVal)} {τ : ℚ}
    (t : ℚ) (args : List PyVal) (kwargs : List (String × PyVal))
    (hwf : ACoreWF c ord τ) {n : ℕ} (hms : cfg.maxsize = some n) (hn : n ≠ 0)
    (hlen : ord.length ≤ n) :
    (asyncCore cfg producer c ord t args kwargs).cache_order.length ≤ n := by
  have hflen : ((c.filter (aliveEntry t cfg.ttl)).map (·.1)).length ≤ n := by
    have h1 : (c.filter (aliveEntry t cfg.ttl)).length ≤ c.length :=
      List.length_filter_le _ _
    have h2 : c.length = ord.length := by
      rw [← hwf.corr]; simp
    simp only [List.length_map]
    omega
  cases hget : dictGet (c.filter (aliveEntry t cfg.ttl)) args with
  | some ent =>
    rw [asyncCore_hit cfg producer t args kwargs hwf hget]
    exact hflen
  | none =>
    rw [asyncCore_miss cfg producer t args kwargs hwf hget]
    exact asyncMiss_order_length cfg producer _ _ t args kwargs hms hn hflen

/-- Capacity invariant of `async_cachettl`: with `maxsize = n > 0`, every
reachable state stores at most `n` entries (`0` is falsy in
`maxsize and len(cache_order) > maxsize`, so `maxsize=0` does not bound). -/
theorem asyncReach_size {cfg : CacheConfig} {st : AsyncState} {τ : ℚ} {n : ℕ}
    (h : AsyncReach cfg st τ) (hms : cfg.maxsize = some n) (hn : n ≠ 0) :
    st.cache_order.length ≤ n ∧ st.cache.length ≤ n := by
  have hord : st.cache_order.length ≤ n := by
    induction h with
    | init => simp [asyncClear]
    | @call st τ h producer t args kwargs ht ih =>
      rw [asyncCall_state_order]
      exact asyncCore_size cfg producer t args kwargs (asyncReach_wf h).1 hms hn ih
    | @info st τ h t ht ih =>
      rw [asyncInfo_state_order, asyncSweep_wf (asyncReach_wf h).1]
      have h1 : (st.cache.filter (aliveEntry t cfg.ttl)).length ≤
          st.cache.length := List.length_filter_le _ _
      have h2 : st.cache.length = st.cache_order.length := by
        rw [← (asyncReach_wf h).1.corr]; simp
      simp only [List.length_map]
      omega
    | @clear st τ h t ht ih => simp [asyncClear]
  have hc : st.cache.length = st.cache_order.length := by
    rw [← (asyncReach_wf h).1.corr]; simp
  exact ⟨hord, by omega⟩

/-- One scripted call of the capacity scenario: a timestamp, the positional
argument tuple, and the value the producer returns for it. -/
abbrev ACallSpec : Type := ℚ × List PyVal × PyVal

/-- The cache entry such a call inserts on a miss. -/
def entryOfCall (c : ACallSpec) : AEntry := (c.2.1, c.2.2, c.1)

/-- The dict key of such a call. -/
def keyOfCall (c : ACallSpec) : List PyVal := c.2.1

/-- Run a list of scripted calls through `async_cachettl._new_lrucache`
(no keyword arguments; each producer succeeds with the scripted value). -/
def aRunCalls (cfg : CacheConfig) : AsyncState → List ACallSpec → AsyncState
  | st, [] => st
  | st, c :: rest =>
    aRunCalls cfg
      (asyncCall (ε := Unit) cfg (fun _ _ => Except.ok c.2.2) st c.1
        c.2.1 []).state rest

/-- The state after scripted calls with pairwise-fresh keys inside one ttl
window, none evicted yet: entries in call order, zero hits, one miss each. -/
def stateOfCalls (calls : List ACallSpec) : AsyncState :=
  ⟨calls.map entryOfCall, calls.map keyOfCall, 0, calls.length⟩

theorem aRunCalls_append (cfg : CacheConfig) :
    ∀ (l1 l2 : List ACallSpec) (st : AsyncState),
    aRunCalls cfg st (l1 ++ l2) = aRunCalls cfg (aRunCalls cfg st l1) l2 := by
  intro l1
  induction l1 with
  | nil => intro l2 st; rfl
  | cons c rest ih =>
    intro l2 st
    simp only [List.cons_append, aRunCalls]
    exact ih l2 _

/-- A call with a key `==`-distinct from everything stored, inside the window
and below capacity: the sweep is a no-op, the producer runs, the entry is
appended, nothing is evicted, and the miss counter ticks. -/
theorem asyncCall_fresh_step (cfg : CacheConfig) {n : ℕ}
    (hms : cfg.maxsize = some n) (t0 T : ℚ) (hwin : T - t0 < cfg.ttl)
    (pre : List ACallSpec) (c : ACallSpec)
    (htimes : ∀ d ∈ pre ++ [c], t0 ≤ d.1 ∧ d.1 ≤ T)
    (hfresh : ∀ d ∈ pre, pyListEq c.2.1 d.2.1 = false)
    (hlen : pre.length + 1 ≤ n) :
    (asyncCall (ε := Unit) cfg (fun _ _ => Except.ok c.2.2) (stateOfCalls pre)
      c.1 c.2.1 []).state = stateOfCalls (pre ++ [c]) := by
  have hct := htimes c (List.mem_append_right _ (List.mem_singleton_self c))
  have hswp : ∀ e ∈ pre.map entryOfCall, c.1 - e.2.2 < cfg.ttl := by
    intro e he
    obtain ⟨d, hd, rfl⟩ := List.mem_map.1 he
    have h1 := htimes d (List.mem_append_left _ hd)
    show c.1 - d.1 < cfg.ttl
    linarith [h1.1, hct.2]
  have hsw := @asyncSweep_noop (pre.map entryOfCall)
    (pre.map keyOfCall) c.1 cfg.ttl hswp
  have hget : dictGet (pre.map entryOfCall) c.2.1 = none := by
    rw [dictGet_none_iff]
    intro e he
    obtain ⟨d, hd, rfl⟩ := List.mem_map.1 he
    exact hfresh d hd
  have htr : maxsizeTruthy cfg.maxsize (pre.length + 1) = false := by
    rw [hms, ← Bool.not_eq_true, maxsizeTruthy_some]
    omega
  simp only [asyncCall, asyncCore, stateOfCalls, hsw, hget, asyncMiss,
    dictSet_eq_append _ _ _ hget, htr, Bool.false_eq_true, if_false,
    List.map_append, List.length_append, List.map_cons, List.map_nil,
    List.length_cons, List.length_nil]
  have hhm : (if pre.map entryOfCall = ([] : List AEntry) then ((0 : ℕ), (0 : ℕ))
      else ((0 : ℕ), pre.length)) = ((0 : ℕ), pre.length) := by
    cases pre <;> simp
  rw [hhm]
  simp [entryOfCall, keyOfCall, htr]

/-- Running scripted calls with pairwise-distinct keys inside one ttl window,
never exceeding capacity, simply accumulates the entries in call order. -/
theorem aRunCalls_fresh (cfg : CacheConfig) {n : ℕ} (hms : cfg.maxsize = some n)
    (t0 T : ℚ) (hwin : T - t0 < cfg.ttl) :
    ∀ (calls pre : List ACallSpec),
    (∀ d ∈ pre ++ calls, t0 ≤ d.1 ∧ d.1 ≤ T) →
    ((pre ++ calls).map keyOfCall).Pairwise
      (fun k1 k2 => pyListEq k1 k2 = false) →
    (pre ++ calls).length ≤ n →
    aRunCalls cfg (stateOfCalls pre) calls = stateOfCalls (pre ++ calls) := by
  intro calls
  induction calls with
  | nil =>
    intro pre _ _ _
    rw [List.append_nil]
    rfl
  | cons c rest ih =>
    intro pre htimes hdist hlen
    have hdist2 : (pre ++ c :: rest).Pairwise
        (fun d e => pyListEq (keyOfCall d) (keyOfCall e) = false) :=
      (List.pairwise_map).1 hdist
    have hfresh : ∀ d ∈ pre, pyListEq c.2.1 d.2.1 = false := by
      intro d hd
      have := ((List.pairwise_append).1 hdist2).2.2 d hd c (by simp)
      exact pyListEq_false_symm this
    have hstep := asyncCall_fresh_step cfg hms t0 T hwin pre c
      (by
        intro d hd
        rcases List.mem_append.1 hd with h1 | h1
        · exact htimes d (List.mem_append_left _ h1)
        · rw [List.mem_singleton] at h1
          subst h1
          exact htimes d (List.mem_append_right _ (by simp)))
      hfresh
      (by
        have := hlen
        simp only [List.length_append, List.length_cons] at this
        omega)
    simp only [aRunCalls, hstep]
    have hassoc : pre ++ [c] ++ rest = pre ++ c :: rest := by simp
    have := ih (pre ++ [c])
      (by rw [hassoc]; exact htimes)
      (by rw [hassoc]; exact hdist)
      (by rw [hassoc]; exact hlen)
    rw [hassoc] at this
    exact this

/-- The `(n+1)`-st distinct fresh key at full capacity: the new entry is
appended and the oldest (first-inserted) entry is popped and deleted. -/
theorem asyncCall_overflow_step (cfg : CacheConfig) {n : ℕ}
    (hms : cfg.maxsize = some n) (hn : n ≠ 0) (t0 T : ℚ)
    (hwin : T - t0 < cfg.ttl) (pre : List ACallSpec) (c : ACallSpec)
    (htimes : ∀ d ∈ pre ++ [c], t0 ≤ d.1 ∧ d.1 ≤ T)
    (hfresh : ∀ d ∈ pre, pyListEq c.2.1 d.2.1 = false)
    (hlen : pre.length = n) :
    (asyncCall (ε := Unit) cfg (fun _ _ => Except.ok c.2.2) (stateOfCalls pre)
      c.1 c.2.1 []).state =
      ⟨(pre.map entryOfCall).tail ++ [entryOfCall c],
       (pre.map keyOfCall).tail ++ [keyOfCall c], 0, n + 1⟩ := by
  cases pre with
  | nil =>
    rw [List.length_nil] at hlen
    exact absurd hlen.symm hn
  | cons d0 drest =>
  have hct := htimes c (List.mem_append_right _ (List.mem_singleton_self c))
  have hswp : ∀ e ∈ (d0 :: drest).map entryOfCall, c.1 - e.2.2 < cfg.ttl := by
    intro e he
    obtain ⟨d, hd, rfl⟩ := List.mem_map.1 he
    have h1 := htimes d (List.mem_append_left _ hd)
    show c.1 - d.1 < cfg.ttl
    linarith [h1.1, hct.2]
  have hsw := @asyncSweep_noop ((d0 :: drest).map entryOfCall)
    ((d0 :: drest).map keyOfCall) c.1 cfg.ttl hswp
  have hget : dictGet ((d0 :: drest).map entryOfCall) c.2.1 = none := by
    rw [dictGet_none_iff]
    intro e he
    obtain ⟨d, hd, rfl⟩ := List.mem_map.1 he
    exact hfresh d hd
  have htr : maxsizeTruthy cfg.maxsize (n + 1) = true := by
    rw [hms, maxsizeTruthy_some]
    omega
  have hdel : dictDel ((d0 :: drest).map entryOfCall ++ [(c.2.1, c.2.2, c.1)])
      (keyOfCall d0) = drest.map entryOfCall ++ [(c.2.1, c.2.2, c.1)] := by
    simp [entryOfCall, keyOfCall, dictDel, pyListEq_refl]
  simp only [List.map_cons, List.cons_append] at hsw hget hdel
  simp only [entryOfCall, keyOfCall] at hdel
  rw [List.length_cons] at hlen
  simp only [asyncCall, asyncCore, stateOfCalls, List.map_cons,
    List.length_cons, hsw, hget, asyncMiss, dictSet_eq_append _ _ _ hget,
    List.cons_append]
  simp [entryOfCall, keyOfCall, htr, hdel, hlen]

/-- `n+1` scripted calls with pairwise-distinct keys inside one ttl window,
starting from an empty cache with `maxsize = n > 0`: the final cache holds
exactly the entries of all calls but the first, in call order. -/
theorem aRunCalls_capacity_scenario (cfg : CacheConfig) {n : ℕ}
    (hms : cfg.maxsize = some n) (hn : n ≠ 0)
    (calls : List ACallSpec) (t0 T : ℚ)
    (hlen : calls.length = n + 1)
    (hdist : (calls.map keyOfCall).Pairwise
      (fun k1 k2 => pyListEq k1 k2 = false))
    (htimes : ∀ d ∈ calls, t0 ≤ d.1 ∧ d.1 ≤ T)
    (hwin : T - t0 < cfg.ttl) :
    (aRunCalls cfg asyncClear calls).cache = calls.tail.map entryOfCall ∧
    (aRunCalls cfg asyncClear calls).cache_order = calls.tail.map keyOfCall := by
  obtain ⟨cl, hdrop⟩ : ∃ cl, calls.drop n = [cl] := by
    rw [← List.length_eq_one, List.length_drop, hlen]
    omega
  have htake : (calls.take n).length = n := by
    rw [List.length_take, hlen]
    omega
  have hsplit : calls.take n ++ [cl] = calls := by
    rw [← hdrop]
    exact List.take_append_drop n calls
  have hpair : calls.Pairwise
      (fun d e => pyListEq (keyOfCall d) (keyOfCall e) = false) :=
    (List.pairwise_map).1 hdist
  have hrun1 : aRunCalls cfg asyncClear (calls.take n) =
      stateOfCalls (calls.take n) := by
    have h := aRunCalls_fresh cfg hms t0 T hwin (calls.take n) []
      (by
        intro d hd
        rw [List.nil_append] at hd
        exact htimes d (List.take_subset n calls hd))
      (by
        rw [List.nil_append, List.map_take]
        exact List.Pairwise.sublist (List.take_sublist n _) hdist)
      (by rw [List.nil_append, htake])
    rw [List.nil_append] at h
    exact h
  have hsplitp : (calls.take n ++ [cl]).Pairwise
      (fun d e => pyListEq (keyOfCall d) (keyOfCall e) = false) := by
    rw [hsplit]
    exact hpair
  have hstep := asyncCall_overflow_step cfg hms hn t0 T hwin (calls.take n) cl
    (by
      intro d hd
      rw [hsplit] at hd
      exact htimes d hd)
    (by
      intro d hd
      exact pyListEq_false_symm
        (((List.pairwise_append).1 hsplitp).2.2 d hd cl (by simp)))
    htake
  have hfinal : aRunCalls cfg asyncClear calls =
      ⟨((calls.take n).map entryOfCall).tail ++ [entryOfCall cl],
       ((calls.take n).map keyOfCall).tail ++ [keyOfCall cl], 0, n + 1⟩ := by
    calc aRunCalls cfg asyncClear calls
        = aRunCalls cfg asyncClear (calls.take n ++ [cl]) := by rw [hsplit]
      _ = aRunCalls cfg (aRunCalls cfg asyncClear (calls.take n)) [cl] :=
          aRunCalls_append cfg _ _ _
      _ = aRunCalls cfg (stateOfCalls (calls.take n)) [cl] := by rw [hrun1]
      _ = (asyncCall (ε := Unit) cfg (fun _ _ => Except.ok cl.2.2)
            (stateOfCalls (calls.take n)) cl.1 cl.2.1 []).state := rfl
      _ = _ := hstep
  obtain ⟨a, as, hta⟩ : ∃ a as, calls.take n = a :: as := by
    cases h : calls.take n with
    | nil =>
      rw [h, List.length_nil] at htake
      exact absurd htake.symm hn
    | cons a as => exact ⟨a, as, rfl⟩
  have htail : calls.tail = as ++ [cl] := by
    rw [← hsplit, hta]
    rfl
  rw [hfinal]
  constructor
  · show ((calls.take n).map entryOfCall).tail ++ [entryOfCall cl] = _
    rw [hta, htail]
    simp
  · show ((calls.take n).map keyOfCall).tail ++ [keyOfCall cl] = _
    rw [hta, htail]
    simp

/-- C7 (amended): with `maxsize` set, the capacity bound `currsize <= n` holds
in every reachable state of the sync facade; in the suspending facade it holds
for every positive `n` (`maxsize=0` is falsy in `maxsize and
len(cache_order) > maxsize` and does not bound).  In the suspending facade,
calling with `n+1` pairwise-distinct fresh keys within one ttl window from an
empty cache leaves exactly `n` entries: every key but the first is still
retrievable as a hit, and exactly the one first-inserted key is not.  The
"exactly one previously-cached key is lost" clause fails for the sync facade
(see the counterexample: a bucket boundary can make two keys unretrievable). -/
theorem C7_amended :
    (∀ (cfg : CacheConfig) (st : SyncState) (τ : ℚ) (n : ℕ),
      SyncReach cfg st τ → cfg.maxsize = some n →
      st.lru.length ≤ n ∧ (syncInfo cfg st τ).currsize ≤ n) ∧
    (∀ (cfg : CacheConfig) (st : AsyncState) (τ : ℚ) (n : ℕ),
      AsyncReach cfg st τ → cfg.maxsize = some n → n ≠ 0 →
      st.cache.length ≤ n ∧ ∀ t : ℚ, (asyncInfo cfg st t).1.currsize ≤ n) ∧
    (∀ (cfg : CacheConfig) (n : ℕ) (calls : List ACallSpec) (t0 T : ℚ),
      cfg.maxsize = some n → n ≠ 0 → calls.length = n + 1 →
      (calls.map keyOfCall).Pairwise (fun k1 k2 => pyListEq k1 k2 = false) →
      (∀ d ∈ calls, t0 ≤ d.1 ∧ d.1 ≤ T) → T - t0 < cfg.ttl →
      (aRunCalls cfg asyncClear calls).cache.length = n ∧
      (∀ d ∈ calls.tail,
        asyncIsHit cfg (aRunCalls cfg asyncClear calls) T (keyOfCall d)
          = true) ∧
      (∀ d, calls.head? = some d →
        asyncIsHit cfg (aRunCalls cfg asyncClear calls) T (keyOfCall d)
          = false)) := by
  refine ⟨?_, ?_, ?_⟩
  · intro cfg st τ n hr hms
    have h := (syncReach_wf hr).1.size n hms
    exact ⟨h, h⟩
  · intro cfg st τ n hr hms hn
    have hwf := (asyncReach_wf hr).1
    have hsz := asyncReach_size hr hms hn
    refine ⟨hsz.2, ?_⟩
    intro t
    have hsw := asyncSweep_wf hwf t cfg.ttl
    simp only [asyncInfo, hsw]
    split
    · simp
    · show (st.cache.filter (aliveEntry t cfg.ttl)).length ≤ n
      exact le_trans (List.length_filter_le _ _) hsz.2
  · intro cfg n calls t0 T hms hn hlen hdist htimes hwin
    obtain ⟨hc, ho⟩ := aRunCalls_capacity_scenario cfg hms hn calls t0 T hlen
      hdist htimes hwin
    have htl : calls.tail.length = n := by
      rw [List.length_tail, hlen]
      omega
    refine ⟨?_, ?_, ?_⟩
    · rw [hc, List.length_map, htl]
    · intro d hd
      have hdistT : calls.tail.Pairwise
          (fun d e => pyListEq (keyOfCall d) (keyOfCall e) = false) :=
        List.Pairwise.sublist (List.tail_sublist calls)
          ((List.pairwise_map).1 hdist)
      have hpair : ((aRunCalls cfg asyncClear calls).cache).Pairwise
          (fun e1 e2 => pyListEq e1.1 e2.1 = false) := by
        rw [hc]
        exact (List.pairwise_map).2 hdistT
      have hmem : (keyOfCall d, d.2.2, d.1) ∈
          (aRunCalls cfg asyncClear calls).cache := by
        rw [hc]
        exact List.mem_map.2 ⟨d, hd, rfl⟩
      have hget := dictGet_eq_of_mem _ (keyOfCall d) (keyOfCall d) (d.2.2, d.1)
        hpair hmem (pyListEq_refl _)
      have hdt := htimes d (List.mem_of_mem_tail hd)
      simp only [asyncIsHit, hget, decide_eq_true_eq]
      show T - d.1 < cfg.ttl
      linarith [hdt.1, hwin]
    · intro d hd
      cases calls with
      | nil => simp at hd
      | cons c0 rest =>
        have hc0 : c0 = d := by simpa using hd
        subst hc0
        have hgetn : dictGet (aRunCalls cfg asyncClear (c0 :: rest)).cache
            (keyOfCall c0) = none := by
          rw [hc, dictGet_none_iff]
          intro e he
          obtain ⟨x, hx, rfl⟩ := List.mem_map.1 he
          exact (List.pairwise_cons.1 ((List.pairwise_map).1 hdist)).1 x hx
        simp only [asyncIsHit, hgetn]

/-- C7 witness: `maxsize = 1`, keys `(1,)` at `t=0` then `(2,)` at `t=1`
(within `ttl = 10`): one entry remains, `(2,)` is still a hit, the evicted
`(1,)` is not. -/
theorem C7_amended_witness :
    (aRunCalls ⟨10, some 1, false⟩ asyncClear
      [(0, [PyVal.vint 1], PyVal.vint 10),
       (1, [PyVal.vint 2], PyVal.vint 20)]).cache.length = 1 ∧
    asyncIsHit ⟨10, some 1, false⟩
      (aRunCalls ⟨10, some 1, false⟩ asyncClear
        [(0, [PyVal.vint 1], PyVal.vint 10),
         (1, [PyVal.vint 2], PyVal.vint 20)]) 1 [PyVal.vint 2] = true ∧
    asyncIsHit ⟨10, some 1, false⟩
      (aRunCalls ⟨10, some 1, false⟩ asyncClear
        [(0, [PyVal.vint 1], PyVal.vint 10),
         (1, [PyVal.vint 2], PyVal.vint 20)]) 1 [PyVal.vint 1] = false := by
  have h := C7_amended.2.2 ⟨10, some 1, false⟩ 1
    [(0, [PyVal.vint 1], PyVal.vint 10), (1, [PyVal.vint 2], PyVal.vint 20)]
    0 1 rfl (by decide) rfl
    (by
      refine List.Pairwise.cons ?_ (List.Pairwise.cons (by simp) .nil)
      intro k hk
      simp only [List.map_cons, List.map_nil, List.mem_singleton] at hk
      subst hk
      rfl)
    (by
      intro d hd
      rcases List.mem_cons.1 hd with rfl | hd
      · exact ⟨le_refl 0, by norm_num⟩
      · rcases List.mem_cons.1 hd with rfl | hd
        · exact ⟨by norm_num, le_refl 1⟩
        · cases hd)
    (by norm_num)
  exact ⟨h.1,
    h.2.1 (1, [PyVal.vint 2], PyVal.vint 20) (List.mem_singleton_self _),
    h.2.2 (0, [PyVal.vint 1], PyVal.vint 10) rfl⟩
